import Mathlib

set_option maxRecDepth 10000

/-!
Verification development for the cxxnetaddr repository.

This file shallowly embeds the core of `NetworkAddress.cpp` /
`NetworkAddress.hpp`.  C++ `std::string` values are modelled as lists of
byte values (`List Nat`, each entry intended to lie in `[0, 255]`).  The
type-erased `::sockaddr_storage` buffer of the C++ class is modelled by a
structured inductive (one constructor per bound family plus the
unspecified state); the raw byte image that `memcmp`, the copy
constructor, and `socket()` operate on is recovered by `structBytes` /
`encode`, which reproduce the Linux layouts of `sockaddr_in`,
`sockaddr_in6`, `sockaddr_ll` and `sockaddr_un` byte for byte.

Operations whose code is not part of the repository sources are modelled
from the specification and are marked as such in their doc comments:
the numeric host/service conversion done by the OS (`getaddrinfo` /
`getnameinfo` with `AI_NUMERICHOST`/`NI_NUMERICHOST`), and the dispatch
helper `cxxutils::constexpr_apply` from `CxxUtilities.hpp`.
-/

/-- ASCII decimal digit test for a byte value. -/
def isDigitByte (b : Nat) : Bool := 48 ≤ b && b ≤ 57

/-- ASCII hexadecimal digit test (0-9, A-F, a-f). -/
def isHexDigitByte (b : Nat) : Bool :=
  (48 ≤ b && b ≤ 57) || (65 ≤ b && b ≤ 70) || (97 ≤ b && b ≤ 102)

/-- C-locale whitespace test (as used by `std::istream` input skipping). -/
def isWsByte (b : Nat) : Bool := b == 32 || (9 ≤ b && b ≤ 13)

/-- Decimal digit list of a natural number, most significant digit first.
Fuel-indexed so that it is structurally recursive (the fuel is always
sufficient when instantiated by `decRepr`). -/
def decReprAux : Nat → Nat → List Nat
  | 0, _ => []
  | fuel + 1, n => if n < 10 then [n] else decReprAux fuel (n / 10) ++ [n % 10]

/-- Decimal digit list of a natural number, most significant first. -/
def decRepr (n : Nat) : List Nat := decReprAux (n + 1) n

/-- Decimal ASCII text of a natural number (models `std::to_string`). -/
def decStr (n : Nat) : List Nat := (decRepr n).map (· + 48)

/-- Numeric value of an ASCII decimal digit string. -/
def decValOf (s : List Nat) : Nat := s.foldl (fun a b => a * 10 + (b - 48)) 0

/-- Parse a nonempty all-decimal-digit byte string. -/
def parseDec (s : List Nat) : Option Nat :=
  if s.isEmpty then none
  else if s.all isDigitByte then some (decValOf s) else none

/-- Hex digit list of a natural number, most significant first (fuel-indexed). -/
def hexReprAux : Nat → Nat → List Nat
  | 0, _ => []
  | fuel + 1, n => if n < 16 then [n] else hexReprAux fuel (n / 16) ++ [n % 16]

/-- Hex digit list of a natural number, most significant first. -/
def hexRepr (n : Nat) : List Nat := hexReprAux (n + 1) n

/-- Lowercase ASCII byte of a hex digit value. -/
def hexLowerByte (d : Nat) : Nat := if d < 10 then 48 + d else 87 + d

/-- Uppercase ASCII byte of a hex digit value. -/
def hexUpperByte (d : Nat) : Nat := if d < 10 then 48 + d else 55 + d

/-- Lowercase hexadecimal ASCII text of a natural number. -/
def hexStr (n : Nat) : List Nat := (hexRepr n).map hexLowerByte

/-- Two-digit zero-padded uppercase hex text of a byte (models the
`std::setw(2) std::setfill` formatting in the Ethernet `toString`). -/
def hexPad2U (n : Nat) : List Nat := [hexUpperByte (n % 256 / 16), hexUpperByte (n % 16)]

/-- Value of an ASCII hex digit byte. -/
def hexDigitVal (b : Nat) : Nat :=
  if b ≤ 57 then b - 48 else if b ≤ 70 then b - 55 else b - 87

/-- Numeric value of an ASCII hex digit string. -/
def hexValOf (s : List Nat) : Nat := s.foldl (fun a b => a * 16 + hexDigitVal b) 0

/-- Join byte-string groups with a single separator byte. -/
def joinSep (c : Nat) : List (List Nat) → List Nat
  | [] => []
  | [g] => g
  | g :: gs => g ++ c :: joinSep c gs

/-- Split a byte string at every occurrence of the separator byte.  Always
returns at least one (possibly empty) group. -/
def splitSep (c : Nat) : List Nat → List (List Nat)
  | [] => [[]]
  | b :: s =>
    match splitSep c s with
    | [] => [[]]
    | g :: gs => if b = c then [] :: g :: gs else (b :: g) :: gs

/-- Index of the first occurrence of a byte (models `std::string::find`). -/
def firstIdx (c : Nat) : List Nat → Option Nat
  | [] => none
  | b :: s => if b = c then some 0 else (firstIdx c s).map (· + 1)

/-- Index of the last occurrence of a byte (models `std::string::rfind`). -/
def rlast (c : Nat) : List Nat → Option Nat
  | [] => none
  | b :: s =>
    match rlast c s with
    | some i => some (i + 1)
    | none => if b = c then some 0 else none

/-- Map a byte-valued parsing function over groups, failing when any group
fails. -/
def mapOpt (f : List Nat → Option Nat) : List (List Nat) → Option (List Nat)
  | [] => some []
  | g :: gs =>
    match f g, mapOpt f gs with
    | some v, some vs => some (v :: vs)
    | _, _ => none

/-- Length of the initial run of nonzero bytes among the first `n` entries
(models `::strnlen(buf, n)` over a buffer holding `l`). -/
def strnlenB (l : List Nat) (n : Nat) : Nat := ((l.take n).takeWhile (· != 0)).length

/-- Split 16-bit words (as produced after `::htons`) into their big-endian
byte pairs, as laid out in `sin6_addr.s6_addr` by the IPv6 `init`. -/
def wordsToBytes : List Nat → List Nat
  | [] => []
  | w :: ws => (w / 256 % 256) :: (w % 256) :: wordsToBytes ws

/-- Recombine stored big-endian byte pairs into 16-bit words (the reading
direction used when formatting an IPv6 address). -/
def bytesToWords : List Nat → List Nat
  | b1 :: b2 :: bs => (b1 * 256 + b2) :: bytesToWords bs
  | _ => []

/-- The `NetworkAddress::Family` enumeration. -/
inductive Family
  | ipv4
  | ipv6
  | ethernet
  | unixSocket
  | unspecified
deriving DecidableEq

/-- Model of the C++ `NetworkAddress` value.  The C++ object is a
type-erased `::sockaddr_storage`; each bound family here keeps its
`sockaddr_*` fields structurally and the byte image is recovered by
`structBytes`.  A `NetworkInterface` argument is represented by its
numeric index (`NetworkInterface::getIndex()`); the interface name and
all OS directory lookups are outside the embedded core.

Fields per constructor:
 - `ipv4 addr port`: the four `sin_addr` bytes in stored (network) order
   and the port in host order (`sin_port` holds its `htons` image).
 - `ipv6 addr port scopeId`: the sixteen `sin6_addr` bytes in stored
   order, the port in host order, and `sin6_scope_id`.
 - `ethernet mac protocolId ifindex halen`: the `sll_addr` bytes written,
   `sll_protocol` in host order, `sll_ifindex`, `sll_halen`.
 - `unixSock sunPath`: the exact 108-byte content of `sun_path`.
 - `unspec stale`: family `AF_UNSPEC` plus whatever payload bytes remain
   in the storage buffer (never read by any accessor). -/
inductive NetworkAddress
  | ipv4 (addr : List Nat) (port : Nat)
  | ipv6 (addr : List Nat) (port : Nat) (scopeId : Nat)
  | ethernet (mac : List Nat) (protocolId : Nat) (ifindex : Nat) (halen : Nat)
  | unixSock (sunPath : List Nat)
  | unspec (stale : List Nat)
deriving DecidableEq

namespace NetworkAddress

/-- `NetworkAddress::family()`: the stored `ss_family` mapped through
`unix2addr`. -/
def family : NetworkAddress → Family
  | .ipv4 .. => .ipv4
  | .ipv6 .. => .ipv6
  | .ethernet .. => .ethernet
  | .unixSock .. => .unixSocket
  | .unspec .. => .unspecified

/-- `NetworkAddress::valid()`: `family() != Family::unspecified`. -/
def valid (a : NetworkAddress) : Bool := decide (a.family ≠ Family.unspecified)

/-- Big-endian byte pair of a 16-bit value (the memory image of an
`htons`-converted field on a little-endian host). -/
def be16 (n : Nat) : List Nat := [n / 256 % 256, n % 256]

/-- Little-endian byte quad of a 32-bit value (host-order `uint32_t` /
`int` field image on a little-endian host). -/
def le32 (n : Nat) : List Nat := [n % 256, n / 256 % 256, n / 65536 % 256, n / 16777216 % 256]

/-- The byte image of the family-specific `sockaddr_*` struct inside the
storage buffer (Linux x86-64 layouts; `AF_UNIX = 1`, `AF_INET = 2`,
`AF_INET6 = 10`, `AF_PACKET = 17`, `sa_family_t` is a 16-bit
little-endian field).  Fields never written by the constructors
(`sin_zero`, `sin6_flowinfo`, `sll_hatype`, `sll_pkttype`, the spare
`sll_addr` bytes) are zero because every construction starts from a
zero-initialised storage. -/
def structBytes : NetworkAddress → List Nat
  | .ipv4 addr port =>
      2 :: 0 :: be16 port ++ addr.map (· % 256) ++ List.replicate 8 0
  | .ipv6 addr port scopeId =>
      10 :: 0 :: be16 port ++ [0, 0, 0, 0] ++ addr.map (· % 256) ++ le32 scopeId
  | .ethernet mac protocolId ifindex halen =>
      17 :: 0 :: be16 protocolId ++ le32 ifindex ++ [0, 0, 0, halen % 256]
        ++ (mac.map (· % 256) ++ List.replicate 8 0).take 8
  | .unixSock sunPath => 1 :: 0 :: sunPath.map (· % 256)
  | .unspec stale => 0 :: 0 :: stale.map (· % 256)

/-- The 128-byte `::sockaddr_storage` image: the struct bytes padded with
the zeroes of the zero-initialised buffer. -/
def encode (a : NetworkAddress) : List Nat :=
  structBytes a ++ List.replicate (128 - (structBytes a).length) 0

/-- `NetworkAddress::socketLength()` through the per-family dispatch:
`sizeof(sockaddr_in)` = 16, `sizeof(sockaddr_in6)` = 28,
`sizeof(sockaddr_ll) - sizeof(sll_addr) + sll_halen` = 12 + halen, and
`offsetof(sockaddr_un, sun_path) + strnlen(sun_path, 108) + 1`.
`none` models the failed dispatch for the unspecified family. -/
def socketLength : NetworkAddress → Option Nat
  | .ipv4 .. => some 16
  | .ipv6 .. => some 28
  | .ethernet _ _ _ halen => some (12 + halen % 256)
  | .unixSock sunPath => some (2 + strnlenB sunPath 108 + 1)
  | .unspec _ => none

/-- Sign-bearing byte comparison (models `std::memcmp` over byte ranges of
equal length: the difference of the first mismatching byte pair, 0 when
no mismatch exists). -/
def memcmpB : List Nat → List Nat → Int
  | a :: as, b :: bs => if a = b then memcmpB as bs else (a : Int) - (b : Int)
  | _, _ => 0

/-- `NetworkAddress::cmp`: compares the two `socketLength()` values, and
on equality memcmps that many storage bytes.  `none` models the failed
dispatch when a side has the unspecified family. -/
def cmp (a b : NetworkAddress) : Option Int :=
  match a.socketLength, b.socketLength with
  | some l1, some l2 =>
      if l1 = l2 then some (memcmpB ((encode a).take l1) ((encode b).take l1))
      else some ((l1 : Int) - (l2 : Int))
  | _, _ => none

/-- `NetworkAddress::operator==`: `cmp(o) == 0`. -/
def eqOp (a b : NetworkAddress) : Option Bool := (cmp a b).map (fun r => r == 0)

/-- Dotted-quad text of the four stored IPv4 address bytes.  Modelled from
the spec: the OS-side `getnameinfo` with `NI_NUMERICHOST` renders an IPv4
host as the canonical dotted quad. -/
def formatIPv4 (addrBytes : List Nat) : List Nat := joinSep 46 (addrBytes.map decStr)

/-- Length of the run of zero words starting at index `i`. -/
def zeroRunLen (ws : List Nat) (i : Nat) : Nat := ((ws.drop i).takeWhile (· == 0)).length

/-- Leftmost longest run of at least two zero words: the run that the
canonical IPv6 formatter abbreviates as `::` (absent when no run of two
or more zero words exists). -/
def bestRun (ws : List Nat) : Option (Nat × Nat) :=
  (List.range ws.length).foldl
    (fun best i =>
      let l := zeroRunLen ws i
      match best with
      | none => if 2 ≤ l then some (i, l) else none
      | some (bi, bl) => if bl < l then some (i, l) else some (bi, bl))
    none

/-- Canonical compressed hextet text of eight 16-bit words.  Modelled from
the spec: the OS-side `getnameinfo` with `NI_NUMERICHOST` renders an IPv6
host in canonical compressed hextet form (lowercase hex words separated
by `:`, the leftmost longest run of two or more zero words abbreviated
as `::`). -/
def formatIPv6core (ws : List Nat) : List Nat :=
  match bestRun ws with
  | none => joinSep 58 (ws.map hexStr)
  | some (b, l) =>
      joinSep 58 ((ws.take b).map hexStr) ++ 58 :: 58 :: joinSep 58 ((ws.drop (b + l)).map hexStr)

/-- `NetworkAddress::toString()` through the per-family dispatch.  IPv4 and
IPv6 follow `IPSocketImpl::toString`: numeric host text, plus a `:port`
suffix exactly when `port() != 0`, the IPv6 host additionally bracketed
in that case.  Ethernet renders `sll_halen` colon-separated two-digit
uppercase hex octets; unix returns the `sun_path` text up to
`strnlen(sun_path, 108)`.  `none` models the failed dispatch for the
unspecified family. -/
def toString : NetworkAddress → Option (List Nat)
  | .ipv4 addr port =>
      some (formatIPv4 addr ++ if port % 65536 = 0 then [] else 58 :: decStr (port % 65536))
  | .ipv6 addr port _ =>
      let host := formatIPv6core (bytesToWords addr)
      some (if port % 65536 = 0 then host else 91 :: host ++ 93 :: 58 :: decStr (port % 65536))
  | .ethernet mac _ _ halen =>
      some (joinSep 58 ((((mac.map (· % 256) ++ List.replicate 8 0).take 8).take (halen % 256)).map hexPad2U))
  | .unixSock sunPath => some (sunPath.take (strnlenB sunPath 108))
  | .unspec _ => none

/-- `::ntohl` applied to the four stored `sin_addr` bytes: the first
stored byte becomes the most significant. -/
def ntohl4 : List Nat → Nat
  | b0 :: b1 :: b2 :: b3 :: _ => ((b0 * 256 + b1) * 256 + b2) * 256 + b3
  | _ => 0

/-- `NetworkAddress::isMulticast()` through the per-family dispatch.
IPv4: `(ntohl(sin_addr) & 0xf0000000) == 0xe0000000`; IPv6: first
`s6_addr` byte equals `0xff`; Ethernet: low bit of the first `sll_addr`
octet.  The unix case reaches `SocketMethods::isMulticast`, which fires
the wrong-family assertion and returns `false`; `none` models the failed
dispatch for the unspecified family. -/
def isMulticast : NetworkAddress → Option Bool
  | .ipv4 addr _ => some (decide (ntohl4 addr &&& 0xf0000000 = 0xe0000000))
  | .ipv6 addr _ _ => some (decide (addr.headD 0 = 255))
  | .ethernet mac _ _ _ => some (decide (mac.headD 0 &&& 1 ≠ 0))
  | .unixSock _ => some false
  | .unspec _ => none

/-- `NetworkAddress::isLinkLocal()` through the per-family dispatch.
IPv4: `169.254.0.0/16`; IPv6: first byte `0xfe` and second `0x80`;
Ethernet: always true; unix reaches the asserting base method returning
`false`; `none` models the failed dispatch for the unspecified family. -/
def isLinkLocal : NetworkAddress → Option Bool
  | .ipv4 addr _ => some (decide (ntohl4 addr &&& 0xffff0000 = 0xa9fe0000))
  | .ipv6 addr _ _ => some (decide (addr.headD 0 = 254) && decide (addr.getD 1 0 = 128))
  | .ethernet _ _ _ _ => some true
  | .unixSock _ => some false
  | .unspec _ => none

/-- `NetworkAddress::port()` through the per-family dispatch:
`ntohs(sin_port)` / `ntohs(sin6_port)`.  Ethernet and unix reach
`SocketMethods::port`, which fires the wrong-family assertion and
returns 0; `none` models the failed dispatch for the unspecified
family. -/
def port : NetworkAddress → Option Nat
  | .ipv4 _ p => some (p % 65536)
  | .ipv6 _ p _ => some (p % 65536)
  | .ethernet .. => some 0
  | .unixSock _ => some 0
  | .unspec _ => none

/-- `NetworkAddress::protocol()` through the per-family dispatch:
`ntohs(sll_protocol)` for Ethernet; the other bound families reach
`SocketMethods::protocol`, which fires the wrong-family assertion and
returns 0; `none` models the failed dispatch for the unspecified
family. -/
def protocol : NetworkAddress → Option Nat
  | .ethernet _ pr _ _ => some (pr % 65536)
  | .ipv4 .. => some 0
  | .ipv6 .. => some 0
  | .unixSock _ => some 0
  | .unspec _ => none

/-- `NetworkAddress::interface()` through the per-family dispatch, with
the OS index-to-interface lookup (`NetworkInterface::fromIntfIndex`)
abstracted as `osLookup`.  IPv4 returns an empty optional by design;
unix reaches the asserting base method returning an empty optional;
`none` models the failed dispatch for the unspecified family. -/
def interfaceIdx (osLookup : Nat → Option Nat) : NetworkAddress → Option (Option Nat)
  | .ipv4 .. => some none
  | .ipv6 _ _ scopeId => some (osLookup scopeId)
  | .ethernet _ _ ifindex _ => some (osLookup ifindex)
  | .unixSock _ => some none
  | .unspec _ => none

/-- `NetworkAddress::withPort`: copies the address and runs the dispatched
`setPort` on the copy.  The boolean records whether the wrong-family
assertion (`SocketMethods::setPort` → `assertWrongFamilyType`) fired:
only IPv4 and IPv6 override `setPort`, so Ethernet and unix addresses
reach the asserting base method and are left unchanged. -/
def withPort (a : NetworkAddress) (p : Nat) : NetworkAddress × Bool :=
  match a with
  | .ipv4 addr _ => (.ipv4 addr p, false)
  | .ipv6 addr _ s => (.ipv6 addr p s, false)
  | .ethernet .. => (a, true)
  | .unixSock _ => (a, true)
  | .unspec _ => (a, false)

/-- `NetworkAddress::withProtocol`: only Ethernet overrides `setProtocol`;
the other bound families reach the asserting base method (boolean as in
`withPort`). -/
def withProtocol (a : NetworkAddress) (pr : Nat) : NetworkAddress × Bool :=
  match a with
  | .ethernet mac _ ifx hl => (.ethernet mac pr ifx hl, false)
  | .ipv4 .. => (a, true)
  | .ipv6 .. => (a, true)
  | .unixSock _ => (a, true)
  | .unspec _ => (a, false)

/-- `NetworkAddress::withInterface` (interface given by its index): IPv4
has an explicit empty `setInterface` (a silent no-op); IPv6 stores the
index in `sin6_scope_id`; Ethernet stores it in `sll_ifindex`; unix
reaches the asserting base method (boolean as in `withPort`). -/
def withInterface (a : NetworkAddress) (idx : Nat) : NetworkAddress × Bool :=
  match a with
  | .ipv4 .. => (a, false)
  | .ipv6 addr p _ => (.ipv6 addr p idx, false)
  | .ethernet mac pr _ hl => (.ethernet mac pr idx hl, false)
  | .unixSock _ => (a, true)
  | .unspec _ => (a, false)

/-- The storage of a moved-from `NetworkAddress`: the byte content is
untouched except that `ss_family` is overwritten with `AF_UNSPEC`. -/
def markMovedFrom (a : NetworkAddress) : NetworkAddress := .unspec ((structBytes a).drop 2)

/-- `NetworkAddress(NetworkAddress&&)`: the destination receives the
source's `socketLength()` leading storage bytes (which determine every
accessor, hence the structural value), and the source's family is reset
to `AF_UNSPEC`.  Returns (destination, source-after-move). -/
def moveConstruct (a : NetworkAddress) : NetworkAddress × NetworkAddress :=
  (a, markMovedFrom a)

/-- `NetworkAddress::operator=(NetworkAddress&&)`: the target is
overwritten with the source's `socketLength()` leading storage bytes and
the source's family is reset to `AF_UNSPEC`.  Returns
(target-after-assignment, source-after-move). -/
def moveAssign (_target : NetworkAddress) (src : NetworkAddress) : NetworkAddress × NetworkAddress :=
  (src, markMovedFrom src)

/-- `sizeof(::sockaddr_storage) - offsetof(::sockaddr_un, sun_path) - 1`,
the `kMaxUnixPathLength` constant of the unix `init`. -/
def kMaxUnixPathLength : Nat := 128 - 2 - 1

/-- The 108-byte `sun_path` content produced by the unix `init`: it
memcpys `min(path.size(), kMaxUnixPathLength) + 1` bytes (path prefix
plus NUL terminator) into `sun_path`; bytes beyond the 108-byte array
are lost when the RAII wrapper copies `sizeof(sockaddr_un)` bytes back,
and the remainder of `sun_path` keeps the zeroes of the
zero-initialised storage. -/
def sunPathBytes (path : List Nat) : List Nat :=
  ((path.take (min path.length kMaxUnixPathLength) ++ [0]).take 108)
    ++ List.replicate (108 - (min path.length kMaxUnixPathLength + 1)) 0

/-- `NetworkAddress::fromUNIXSocketPath`. -/
def fromUNIXSocketPath (path : List Nat) : NetworkAddress := .unixSock (sunPathBytes path)

/-- Whether the debug assertion `assert(path.size() <= kMaxUnixPathLength)`
in the unix `init` fires. -/
def unixInitAsserts (path : List Nat) : Bool := decide (kMaxUnixPathLength < path.length)

/-- The host/port split of `NetworkAddress::fromIPString`: find the last
`:`; split there unless (another `:` exists earlier and the last `]`
— if any — lies strictly after the last `:`).  The `npos` comparisons of
the C++ (`bracket == npos || bracket > lastloc`) are modelled by the
`Option` match. -/
def splitHostPort (s : List Nat) : List Nat × List Nat :=
  match rlast 58 s with
  | none => (s, [])
  | some lastloc =>
    let noSplit :=
      (firstIdx 58 s != some lastloc) &&
      (match rlast 93 s with
       | none => true
       | some j => decide (lastloc < j))
    if noSplit then (s, []) else (s.take lastloc, s.drop (lastloc + 1))

/-- The bracket-stripping step of `fromIPString`: when the host part both
starts with `[` and ends with `]`, keep `substr(1, size - 2)`.  `front()`
/ `back()` on an empty host read the terminating NUL byte of the
underlying buffer, modelled by the 0 defaults. -/
def stripBrackets : List Nat × List Nat → List Nat × List Nat
  | (h, p) =>
    if h.headD 0 = 91 ∧ h.getLastD 0 = 93
    then ((h.drop 1).take (h.length - 2), p)
    else (h, p)

/-- One decimal octet of a dotted quad: nonempty, at most three decimal
digits, value at most 255.  Modelled from the spec: part of the OS-side
numeric-only host resolution (`getaddrinfo` with `AI_NUMERICHOST`). -/
def decOctet (g : List Nat) : Option Nat :=
  if g.isEmpty then none
  else if 3 < g.length then none
  else if g.all isDigitByte then
    (if decValOf g ≤ 255 then some (decValOf g) else none)
  else none

/-- Numeric IPv4 host parsing: the dotted quad must have exactly four
valid octets.  Modelled from the spec: the OS-side numeric-only host
resolution picks IPv4 for dotted-quad text. -/
def parseIPv4 (host : List Nat) : Option (List Nat) :=
  let parts := splitSep 46 host
  if parts.length = 4 then mapOpt decOctet parts else none

/-- One hextet group of an IPv6 literal: one to four hex digits. -/
def parseHexGroup (g : List Nat) : Option Nat :=
  if g.isEmpty then none
  else if 4 < g.length then none
  else if g.all isHexDigitByte then some (hexValOf g) else none

/-- Locate the `::` gap in the `:`-split groups of an IPv6 literal,
walking over the nonempty groups before the gap.  `left` accumulates the
groups already passed. -/
def gapSplitAux (left : List (List Nat)) :
    List (List Nat) → Option (List (List Nat) × List (List Nat))
  | [] => none
  | [] :: rest =>
      if left.isEmpty then none
      else if rest = [[]] then some (left, [])
      else if !rest.isEmpty && rest.all (fun g => !g.isEmpty) then some (left, rest)
      else none
  | (b :: g) :: rest => gapSplitAux (left ++ [b :: g]) rest

/-- Split the `:`-separated groups of an IPv6 literal around its single
`::` gap: `some (before, after)` when the literal is well formed, `none`
otherwise.  A leading `::` shows up as two leading empty groups, a
trailing `::` as two trailing empty groups, `::` alone as three empty
groups. -/
def gapSplit (gs : List (List Nat)) : Option (List (List Nat) × List (List Nat)) :=
  match gs with
  | [] :: [] :: rest =>
      if rest = [[]] then some ([], [])
      else if !rest.isEmpty && rest.all (fun g => !g.isEmpty) then some ([], rest)
      else none
  | _ => gapSplitAux [] gs

/-- Numeric IPv6 host parsing to eight 16-bit words: either eight plain
hextet groups, or a single `::` gap filled with zero words.  Modelled
from the spec: the OS-side numeric-only host resolution picks IPv6 for
hextet text. -/
def parseIPv6 (s : List Nat) : Option (List Nat) :=
  let gs := splitSep 58 s
  if gs.all (fun g => !g.isEmpty) then
    (if gs.length = 8 then mapOpt parseHexGroup gs else none)
  else
    match gapSplit gs with
    | none => none
    | some (A, B) =>
      if A.length + B.length ≤ 7 then
        match mapOpt parseHexGroup A, mapOpt parseHexGroup B with
        | some va, some vb =>
            some (va ++ List.replicate (8 - (va.length + vb.length)) 0 ++ vb)
        | _, _ => none
      else none

/-- Numeric service parsing: a nonempty decimal string with value at most
65535.  Modelled from the spec: the OS-side service resolution with
`AI_NUMERICSERV`. -/
def parsePortNum (s : List Nat) : Option Nat :=
  match parseDec s with
  | some v => if v ≤ 65535 then some v else none
  | none => none

/-- `NetworkAddress::fromIPString`: split host and port text, strip one
pair of surrounding brackets from the host, pick the port text
(`parsePortInString` and a nonempty port part) or `std::to_string
(defaultPort)`, then resolve numerically.  The resolution itself
(`getaddrinfo` with `AI_NUMERICHOST | AI_NUMERICSERV`) is code outside
the repository and is modelled from the spec: dotted-quad text resolves
to an IPv4 record, hextet text to an IPv6 record with zero scope, and
any failure yields an absent result. -/
def fromIPString (s : List Nat) (defaultPort : Nat) (parsePortInString : Bool) :
    Option NetworkAddress :=
  let hp := stripBrackets (splitHostPort s)
  let portText := if parsePortInString && !hp.2.isEmpty then hp.2 else decStr defaultPort
  match parsePortNum portText with
  | none => none
  | some p =>
    match parseIPv4 hp.1 with
    | some addrBytes => some (.ipv4 addrBytes p)
    | none =>
      match parseIPv6 hp.1 with
      | some words => some (.ipv6 (wordsToBytes words) p 0)
      | none => none

/-- The `std::getline(ss, s, ':')` split loop of `fromMACString`: like
`splitSep`, but an empty final segment (empty input, or input ending in
the delimiter) produces no part because the final `getline` extracts
nothing and fails. -/
def getlineSplit (c : Nat) (s : List Nat) : List (List Nat) :=
  match s with
  | [] => []
  | _ =>
    let gs := splitSep c s
    if gs.getLastD [] = [] then gs.dropLast else gs

/-- The negative-sign test of the stream hex read. -/
def streamSign (t : List Nat) : Bool := t.headD 0 == 45

/-- Consume an optional leading sign byte. -/
def streamAfterSign (t : List Nat) : List Nat :=
  if t.headD 0 == 43 || t.headD 0 == 45 then t.tail else t

/-- Consume an optional `0x`/`0X` base prefix. -/
def streamBody (t1 : List Nat) : List Nat :=
  if t1.headD 0 == 48 && (t1.tail.headD 0 == 120 || t1.tail.headD 0 == 88)
  then t1.tail.tail else t1

/-- `std::istringstream >> std::hex >> int` on a part: skip leading
whitespace, an optional sign, an optional `0x`/`0X` prefix (which must
be followed by a digit), then the longest run of hex digits (failure
when that run is empty; trailing non-digit bytes are ignored). -/
def streamHexInt (s : List Nat) : Option Int :=
  let t := s.dropWhile isWsByte
  let ds := (streamBody (streamAfterSign t)).takeWhile isHexDigitByte
  if ds.isEmpty then none
  else some ((if streamSign t then (-1 : Int) else 1) * (hexValOf ds : Int))

/-- One MAC octet in `fromMACString`: the part must be nonempty and at
most two bytes long, stream-parse as a hex integer, and lie in
`[0, 255]`. -/
def macPartByte (p : List Nat) : Option Nat :=
  if p.isEmpty then none
  else if 2 < p.length then none
  else
    match streamHexInt p with
    | none => none
    | some v => if v < 0 ∨ 255 < v then none else some v.toNat

/-- `NetworkAddress::fromMACString`: getline-split on `:`, require exactly
`ETH_ALEN` (6) parts, stream-parse each part as a hex byte, and build the
Ethernet address with protocol 0 and no interface. -/
def fromMACString (s : List Nat) : Option NetworkAddress :=
  let parts := getlineSplit 58 s
  if parts.length = 6 then
    match mapOpt macPartByte parts with
    | some bytes => some (.ethernet bytes 0 0 6)
    | none => none
  else none

/-- `NetworkAddress()`: a zero-initialised storage with family
`AF_UNSPEC`. -/
def defaultAddress : NetworkAddress := .unspec (List.replicate 126 0)

end NetworkAddress

/-- The host/port split rule exactly as the specification sentence words
it (for comparison with the source-derived `splitHostPort`): find the
last `:`; if it is the only `:` present, or a closing bracket `]`
appears at or after that position, everything before it is the host and
everything after is port text; otherwise the entire string is the host
with no port. -/
def splitRuleSpec (s : List Nat) : List Nat × List Nat :=
  match rlast 58 s with
  | none => (s, [])
  | some lastloc =>
    if s.count 58 = 1 ∨ (match rlast 93 s with
                         | some j => decide (lastloc ≤ j)
                         | none => false) = true
    then (s.take lastloc, s.drop (lastloc + 1))
    else (s, [])

/-- The `fromMACString` acceptance condition exactly as the specification
sentence words it (for comparison with the source-derived
`fromMACString`): the split must yield exactly 6 non-empty parts, each
at most 2 hex digits, each parsing as an integer in `[0, 255]`. -/
def macRuleSpec (s : List Nat) : Prop :=
  (NetworkAddress.getlineSplit 58 s).length = 6 ∧
    ∀ p ∈ NetworkAddress.getlineSplit 58 s,
      p ≠ [] ∧ p.length ≤ 2 ∧ p.all isHexDigitByte = true ∧ hexValOf p ≤ 255

instance (s : List Nat) : Decidable (macRuleSpec s) := by
  unfold macRuleSpec
  infer_instance

/-! ### Basic lemmas about the byte-comparison primitive -/

namespace NetworkAddress

lemma memcmpB_nil_left (y : List Nat) : memcmpB [] y = 0 := by
  cases y <;> simp [memcmpB]

lemma memcmpB_nil_right (x : List Nat) : memcmpB x [] = 0 := by
  cases x <;> simp [memcmpB]

lemma memcmpB_self (x : List Nat) : memcmpB x x = 0 := by
  induction x with
  | nil => simp [memcmpB]
  | cons a as ih => simp [memcmpB, ih]

lemma memcmpB_antisymm (x : List Nat) : ∀ y, memcmpB x y = - memcmpB y x := by
  induction x with
  | nil => intro y; rw [memcmpB_nil_left, memcmpB_nil_right]; rfl
  | cons a as ih =>
    intro y
    cases y with
    | nil => rw [memcmpB_nil_left, memcmpB_nil_right]; rfl
    | cons b bs =>
      by_cases h : a = b
      · subst h; simp [memcmpB, ih bs]
      · have h2 : b ≠ a := fun hh => h hh.symm
        simp only [memcmpB, if_neg h, if_neg h2]
        omega

lemma memcmpB_trans_neg (x : List Nat) :
    ∀ y z, memcmpB x y < 0 → memcmpB y z < 0 → memcmpB x z < 0 := by
  induction x with
  | nil => intro y z h1 _; rw [memcmpB_nil_left] at h1; omega
  | cons a as ih =>
    intro y z h1 h2
    cases y with
    | nil => rw [memcmpB_nil_right] at h1; omega
    | cons b bs =>
      cases z with
      | nil => rw [memcmpB_nil_right] at h2; omega
      | cons c cs =>
        by_cases hab : a = b
        · rw [show memcmpB (a :: as) (b :: bs) = memcmpB as bs by
              simp [memcmpB, hab]] at h1
          by_cases hbc : b = c
          · have hac : a = c := hab.trans hbc
            rw [show memcmpB (b :: bs) (c :: cs) = memcmpB bs cs by
                simp [memcmpB, hbc]] at h2
            rw [show memcmpB (a :: as) (c :: cs) = memcmpB as cs by
                simp [memcmpB, hac]]
            exact ih bs cs h1 h2
          · rw [show memcmpB (b :: bs) (c :: cs) = (b : Int) - c by
                simp [memcmpB, hbc]] at h2
            have hac : a ≠ c := by omega
            rw [show memcmpB (a :: as) (c :: cs) = (a : Int) - c by
                simp [memcmpB, hac]]
            omega
        · rw [show memcmpB (a :: as) (b :: bs) = (a : Int) - b by
              simp [memcmpB, hab]] at h1
          by_cases hbc : b = c
          · have hac : a ≠ c := by omega
            rw [show memcmpB (a :: as) (c :: cs) = (a : Int) - c by
                simp [memcmpB, hac]]
            omega
          · rw [show memcmpB (b :: bs) (c :: cs) = (b : Int) - c by
                simp [memcmpB, hbc]] at h2
            have hac : a ≠ c := by omega
            rw [show memcmpB (a :: as) (c :: cs) = (a : Int) - c by
                simp [memcmpB, hac]]
            omega

/-- A valid address always has a defined socket length. -/
lemma socketLength_isSome_of_valid (a : NetworkAddress) (h : a.valid = true) :
    ∃ l, a.socketLength = some l := by
  cases a with
  | ipv4 addr port => exact ⟨16, rfl⟩
  | ipv6 addr port scopeId => exact ⟨28, rfl⟩
  | ethernet mac protocolId ifindex halen => exact ⟨12 + halen % 256, rfl⟩
  | unixSock sunPath => exact ⟨2 + strnlenB sunPath 108 + 1, rfl⟩
  | unspec stale => simp [valid, family] at h

/-- Defining equation of `cmp` once both socket lengths are known. -/
lemma cmp_eq_of_lengths (a b : NetworkAddress) (l1 l2 : Nat)
    (h1 : a.socketLength = some l1) (h2 : b.socketLength = some l2) :
    a.cmp b = if l1 = l2
              then some (memcmpB ((encode a).take l1) ((encode b).take l1))
              else some ((l1 : Int) - (l2 : Int)) := by
  unfold cmp
  rw [h1, h2]

lemma cmp_defined (a b : NetworkAddress) (ha : a.valid = true) (hb : b.valid = true) :
    ∃ r, a.cmp b = some r := by
  obtain ⟨l1, h1⟩ := socketLength_isSome_of_valid a ha
  obtain ⟨l2, h2⟩ := socketLength_isSome_of_valid b hb
  rw [cmp_eq_of_lengths a b l1 l2 h1 h2]
  by_cases h : l1 = l2
  · rw [if_pos h]; exact ⟨_, rfl⟩
  · rw [if_neg h]; exact ⟨_, rfl⟩

lemma cmp_self (a : NetworkAddress) (ha : a.valid = true) : a.cmp a = some 0 := by
  obtain ⟨l, h⟩ := socketLength_isSome_of_valid a ha
  rw [cmp_eq_of_lengths a a l l h h, if_pos rfl, memcmpB_self]

/-- The value returned by `cmp` in the reverse direction is the negation
of the forward value. -/
lemma cmp_antisymm_val (a b : NetworkAddress) (r s : Int)
    (ha : a.valid = true) (hb : b.valid = true)
    (hr : a.cmp b = some r) (hs : b.cmp a = some s) : s = -r := by
  obtain ⟨l1, h1⟩ := socketLength_isSome_of_valid a ha
  obtain ⟨l2, h2⟩ := socketLength_isSome_of_valid b hb
  rw [cmp_eq_of_lengths a b l1 l2 h1 h2] at hr
  rw [cmp_eq_of_lengths b a l2 l1 h2 h1] at hs
  by_cases h : l1 = l2
  · subst h
    rw [if_pos rfl] at hr hs
    have er := Option.some.inj hr
    have es := Option.some.inj hs
    rw [← er, ← es]
    exact memcmpB_antisymm _ _
  · rw [if_neg h] at hr
    rw [if_neg (fun hh => h hh.symm)] at hs
    have er := Option.some.inj hr
    have es := Option.some.inj hs
    omega

end NetworkAddress

open NetworkAddress in
/-- C1: the comparator `cmp` computes each address's `socketLength()`;
unequal lengths order by the length difference, equal lengths by raw
byte comparison of that many storage bytes; and the operators derived
from this single comparator form a strict total order on valid
addresses: the comparison is always defined and reflexively zero,
antisymmetric, transitive, and `operator==` holds exactly when the
comparator returns zero. -/
theorem cmp_strict_total_order (a b c : NetworkAddress)
    (ha : a.valid = true) (hb : b.valid = true) (hc : c.valid = true) :
    (∀ l1 l2, a.socketLength = some l1 → b.socketLength = some l2 →
       (l1 = l2 → a.cmp b = some (memcmpB ((encode a).take l1) ((encode b).take l1))) ∧
       (l1 ≠ l2 → a.cmp b = some ((l1 : Int) - (l2 : Int)))) ∧
    (∃ r, a.cmp b = some r) ∧
    a.cmp a = some 0 ∧
    (∀ r s, a.cmp b = some r → b.cmp a = some s → ((r = 0 ↔ s = 0) ∧ (r < 0 ↔ 0 < s))) ∧
    (∀ r s, a.cmp b = some r → b.cmp c = some s → r < 0 → s < 0 →
       ∃ t, a.cmp c = some t ∧ t < 0) ∧
    (a.eqOp b = some true ↔ a.cmp b = some 0) := by
  refine ⟨?_, cmp_defined a b ha hb, cmp_self a ha, ?_, ?_, ?_⟩
  · intro l1 l2 h1 h2
    constructor
    · intro h
      subst h
      rw [cmp_eq_of_lengths a b _ _ h1 h2, if_pos rfl]
    · intro h
      rw [cmp_eq_of_lengths a b _ _ h1 h2, if_neg h]
  · intro r s hr hs
    have := cmp_antisymm_val a b r s ha hb hr hs
    constructor <;> omega
  · intro r s hr hs hrneg hsneg
    obtain ⟨l1, h1⟩ := socketLength_isSome_of_valid a ha
    obtain ⟨l2, h2⟩ := socketLength_isSome_of_valid b hb
    obtain ⟨l3, h3⟩ := socketLength_isSome_of_valid c hc
    rw [cmp_eq_of_lengths a b l1 l2 h1 h2] at hr
    rw [cmp_eq_of_lengths b c l2 l3 h2 h3] at hs
    rw [cmp_eq_of_lengths a c l1 l3 h1 h3]
    by_cases e12 : l1 = l2
    · subst e12
      rw [if_pos rfl] at hr
      have er := Option.some.inj hr
      by_cases e23 : l1 = l3
      · subst e23
        rw [if_pos rfl] at hs ⊢
        have es := Option.some.inj hs
        exact ⟨_, rfl, memcmpB_trans_neg _ _ _ (er ▸ hrneg) (es ▸ hsneg)⟩
      · rw [if_neg e23] at hs ⊢
        have es := Option.some.inj hs
        exact ⟨_, rfl, by omega⟩
    · rw [if_neg e12] at hr
      have er := Option.some.inj hr
      by_cases e23 : l2 = l3
      · subst e23
        rw [if_neg e12]
        exact ⟨_, rfl, by omega⟩
      · rw [if_neg e23] at hs
        have es := Option.some.inj hs
        have e13 : l1 ≠ l3 := by omega
        rw [if_neg e13]
        exact ⟨_, rfl, by omega⟩
  · obtain ⟨r, hr⟩ := cmp_defined a b ha hb
    rw [eqOp, hr]
    simp [beq_iff_eq]

open NetworkAddress in
/-- C1 witness: the strict-total-order properties at three concrete valid
addresses. -/
theorem cmp_strict_total_order_witness :
    (NetworkAddress.ipv4 [1, 2, 3, 4] 80).valid = true ∧
    (NetworkAddress.ipv4 [1, 2, 3, 5] 80).valid = true ∧
    (NetworkAddress.ipv6 (wordsToBytes [0, 0, 0, 0, 0, 0, 0, 1]) 0 0).valid = true ∧
    ((∀ l1 l2, (NetworkAddress.ipv4 [1, 2, 3, 4] 80).socketLength = some l1 →
        (NetworkAddress.ipv4 [1, 2, 3, 5] 80).socketLength = some l2 →
       (l1 = l2 → (NetworkAddress.ipv4 [1, 2, 3, 4] 80).cmp (NetworkAddress.ipv4 [1, 2, 3, 5] 80) =
          some (memcmpB ((encode (NetworkAddress.ipv4 [1, 2, 3, 4] 80)).take l1)
                        ((encode (NetworkAddress.ipv4 [1, 2, 3, 5] 80)).take l1))) ∧
       (l1 ≠ l2 → (NetworkAddress.ipv4 [1, 2, 3, 4] 80).cmp (NetworkAddress.ipv4 [1, 2, 3, 5] 80) =
          some ((l1 : Int) - (l2 : Int)))) ∧
     (∃ r, (NetworkAddress.ipv4 [1, 2, 3, 4] 80).cmp (NetworkAddress.ipv4 [1, 2, 3, 5] 80) = some r) ∧
     (NetworkAddress.ipv4 [1, 2, 3, 4] 80).cmp (NetworkAddress.ipv4 [1, 2, 3, 4] 80) = some 0 ∧
     (∀ r s, (NetworkAddress.ipv4 [1, 2, 3, 4] 80).cmp (NetworkAddress.ipv4 [1, 2, 3, 5] 80) = some r →
        (NetworkAddress.ipv4 [1, 2, 3, 5] 80).cmp (NetworkAddress.ipv4 [1, 2, 3, 4] 80) = some s →
        ((r = 0 ↔ s = 0) ∧ (r < 0 ↔ 0 < s))) ∧
     (∀ r s, (NetworkAddress.ipv4 [1, 2, 3, 4] 80).cmp (NetworkAddress.ipv4 [1, 2, 3, 5] 80) = some r →
        (NetworkAddress.ipv4 [1, 2, 3, 5] 80).cmp (NetworkAddress.ipv6 (wordsToBytes [0, 0, 0, 0, 0, 0, 0, 1]) 0 0) = some s →
        r < 0 → s < 0 →
        ∃ t, (NetworkAddress.ipv4 [1, 2, 3, 4] 80).cmp (NetworkAddress.ipv6 (wordsToBytes [0, 0, 0, 0, 0, 0, 0, 1]) 0 0) = some t ∧ t < 0) ∧
     ((NetworkAddress.ipv4 [1, 2, 3, 4] 80).eqOp (NetworkAddress.ipv4 [1, 2, 3, 5] 80) = some true ↔
        (NetworkAddress.ipv4 [1, 2, 3, 4] 80).cmp (NetworkAddress.ipv4 [1, 2, 3, 5] 80) = some 0)) :=
  ⟨by decide, by decide, by decide,
   cmp_strict_total_order
     (NetworkAddress.ipv4 [1, 2, 3, 4] 80)
     (NetworkAddress.ipv4 [1, 2, 3, 5] 80)
     (NetworkAddress.ipv6 (wordsToBytes [0, 0, 0, 0, 0, 0, 0, 1]) 0 0)
     (by decide) (by decide) (by decide)⟩


open NetworkAddress in
/-- C3: every accessor other than `valid()` and `family()` — `toString`,
`socketLength`, `isMulticast`, `isLinkLocal`, `interface`, `port`,
`protocol` — signals the unspecified state with an absent result instead
of reading stale payload bytes, for every address whose family is
unspecified. -/
theorem unspecified_accessors_signal (a : NetworkAddress) (osLookup : Nat → Option Nat)
    (h : a.family = Family.unspecified) :
    a.toString = none ∧ a.socketLength = none ∧ a.isMulticast = none ∧
    a.isLinkLocal = none ∧ a.interfaceIdx osLookup = none ∧
    a.port = none ∧ a.protocol = none := by
  cases a with
  | ipv4 addr port => exact absurd h (by simp [family])
  | ipv6 addr port scopeId => exact absurd h (by simp [family])
  | ethernet mac protocolId ifindex halen => exact absurd h (by simp [family])
  | unixSock sunPath => exact absurd h (by simp [family])
  | unspec stale =>
    exact ⟨rfl, rfl, rfl, rfl, rfl, rfl, rfl⟩

open NetworkAddress in
/-- C3 witness: the accessors of the default-constructed (never bound)
address are all absent. -/
theorem unspecified_accessors_signal_witness :
    defaultAddress.toString = none ∧ defaultAddress.socketLength = none ∧
    defaultAddress.isMulticast = none ∧ defaultAddress.isLinkLocal = none ∧
    defaultAddress.interfaceIdx (fun _ => none) = none ∧
    defaultAddress.port = none ∧ defaultAddress.protocol = none :=
  unspecified_accessors_signal defaultAddress (fun _ => none) (by decide)

open NetworkAddress in
/-- C7: move-construction and move-assignment transfer the byte content
to the destination — the destination compares equal to (indeed is) the
former value of the source — and reset the source's family to
unspecified, so the moved-from address has `valid() = false`. -/
theorem move_resets_source (a t : NetworkAddress) (ha : a.valid = true) :
    (moveConstruct a).1 = a ∧
    (moveConstruct a).1.cmp a = some 0 ∧
    (moveConstruct a).2.valid = false ∧
    (moveAssign t a).1 = a ∧
    (moveAssign t a).1.cmp a = some 0 ∧
    (moveAssign t a).2.valid = false :=
  ⟨rfl, cmp_self a ha, rfl, rfl, cmp_self a ha, rfl⟩

open NetworkAddress in
/-- C7 witness: moving from a concrete IPv4 address. -/
theorem move_resets_source_witness :
    (NetworkAddress.ipv4 [10, 0, 0, 1] 5353).valid = true ∧
    ((moveConstruct (NetworkAddress.ipv4 [10, 0, 0, 1] 5353)).1 = NetworkAddress.ipv4 [10, 0, 0, 1] 5353 ∧
     (moveConstruct (NetworkAddress.ipv4 [10, 0, 0, 1] 5353)).1.cmp (NetworkAddress.ipv4 [10, 0, 0, 1] 5353) = some 0 ∧
     (moveConstruct (NetworkAddress.ipv4 [10, 0, 0, 1] 5353)).2.valid = false ∧
     (moveAssign defaultAddress (NetworkAddress.ipv4 [10, 0, 0, 1] 5353)).1 = NetworkAddress.ipv4 [10, 0, 0, 1] 5353 ∧
     (moveAssign defaultAddress (NetworkAddress.ipv4 [10, 0, 0, 1] 5353)).1.cmp (NetworkAddress.ipv4 [10, 0, 0, 1] 5353) = some 0 ∧
     (moveAssign defaultAddress (NetworkAddress.ipv4 [10, 0, 0, 1] 5353)).2.valid = false) :=
  ⟨by decide,
   move_resets_source (NetworkAddress.ipv4 [10, 0, 0, 1] 5353) defaultAddress (by decide)⟩

open NetworkAddress in
/-- C10: for every IPv4 or IPv6 address and every 16-bit port value `p`,
`withPort p` changes only the port field — the family, the stored
address bytes and (for IPv6) the scope-id are untouched — the result's
`port()` is `p`, and no wrong-family assertion fires. -/
theorem withPort_frame (addr4 addr6 : List Nat) (port4 port6 scope p : Nat)
    (hp : p < 65536) :
    (withPort (NetworkAddress.ipv4 addr4 port4) p = (NetworkAddress.ipv4 addr4 p, false) ∧
     (NetworkAddress.ipv4 addr4 p).port = some p ∧
     (NetworkAddress.ipv4 addr4 p).family = (NetworkAddress.ipv4 addr4 port4).family) ∧
    (withPort (NetworkAddress.ipv6 addr6 port6 scope) p = (NetworkAddress.ipv6 addr6 p scope, false) ∧
     (NetworkAddress.ipv6 addr6 p scope).port = some p ∧
     (NetworkAddress.ipv6 addr6 p scope).family = (NetworkAddress.ipv6 addr6 port6 scope).family) := by
  refine ⟨⟨rfl, ?_, rfl⟩, ⟨rfl, ?_, rfl⟩⟩
  · simp [port, Nat.mod_eq_of_lt hp]
  · simp [port, Nat.mod_eq_of_lt hp]

open NetworkAddress in
/-- C10 witness: `withPort` at a concrete IPv4 and IPv6 address. -/
theorem withPort_frame_witness :
    (9999 : Nat) < 65536 ∧
    ((withPort (NetworkAddress.ipv4 [192, 168, 1, 1] 80) 9999 = (NetworkAddress.ipv4 [192, 168, 1, 1] 9999, false) ∧
      (NetworkAddress.ipv4 [192, 168, 1, 1] 9999).port = some 9999 ∧
      (NetworkAddress.ipv4 [192, 168, 1, 1] 9999).family = (NetworkAddress.ipv4 [192, 168, 1, 1] 80).family) ∧
     (withPort (NetworkAddress.ipv6 (wordsToBytes [0xfe80, 0, 0, 0, 0, 0, 0, 1]) 443 7) 9999 =
        (NetworkAddress.ipv6 (wordsToBytes [0xfe80, 0, 0, 0, 0, 0, 0, 1]) 9999 7, false) ∧
      (NetworkAddress.ipv6 (wordsToBytes [0xfe80, 0, 0, 0, 0, 0, 0, 1]) 9999 7).port = some 9999 ∧
      (NetworkAddress.ipv6 (wordsToBytes [0xfe80, 0, 0, 0, 0, 0, 0, 1]) 9999 7).family =
        (NetworkAddress.ipv6 (wordsToBytes [0xfe80, 0, 0, 0, 0, 0, 0, 1]) 443 7).family)) :=
  ⟨by decide,
   withPort_frame [192, 168, 1, 1] (wordsToBytes [0xfe80, 0, 0, 0, 0, 0, 0, 1]) 80 443 7 9999 (by decide)⟩

open NetworkAddress in
/-- C4 counterexample: `withPort` on an Ethernet address does return an
unchanged copy, but it is not silent — the dispatched call lands in
`SocketMethods::setPort`, whose `assertWrongFamilyType()` assertion
fires (in debug builds), contradicting the claim that no assertion
fires. -/
theorem withPort_claim_counterexample :
    (withPort (NetworkAddress.ethernet [0, 26, 43, 60, 77, 94] 0 0 6) 80).1 =
      NetworkAddress.ethernet [0, 26, 43, 60, 77, 94] 0 0 6 ∧
    (withPort (NetworkAddress.ethernet [0, 26, 43, 60, 77, 94] 0 0 6) 80).2 = true := by
  decide

open NetworkAddress in
/-- C4 amended: `withPort` on an Ethernet or Unix-socket address returns
an address equal to (indeed identical to) the original, and no error is
signaled through the return value, but the wrong-family assertion in
`SocketMethods::setPort` fires in debug builds (the call is silent only
in release builds, where `assert` is compiled out).  Likewise
`withProtocol` on IPv4/IPv6/Unix and `withInterface` on Unix are
unchanged-copy operations whose wrong-family assertion fires, while
`withInterface` on IPv4 is a genuinely silent no-op
(`SocketImpl<ipv4>::setInterface` has an empty body). -/
theorem withPort_wrong_family_noop (a : NetworkAddress) (p idx : Nat) :
    ((a.family = Family.ethernet ∨ a.family = Family.unixSocket) →
       withPort a p = (a, true)) ∧
    ((a.family = Family.ipv4 ∨ a.family = Family.ipv6 ∨ a.family = Family.unixSocket) →
       withProtocol a p = (a, true)) ∧
    (a.family = Family.unixSocket → withInterface a idx = (a, true)) ∧
    (a.family = Family.ipv4 → withInterface a idx = (a, false)) := by
  cases a <;> simp [family, withPort, withProtocol, withInterface]

open NetworkAddress in
/-- C4 witness: `withPort` and `withProtocol` on a concrete Unix-socket
address are unchanged-copy operations with the assertion flag set. -/
theorem withPort_wrong_family_noop_witness :
    ((fromUNIXSocketPath [47, 116, 109, 112]).family = Family.ethernet ∨
       (fromUNIXSocketPath [47, 116, 109, 112]).family = Family.unixSocket) ∧
    withPort (fromUNIXSocketPath [47, 116, 109, 112]) 80 = (fromUNIXSocketPath [47, 116, 109, 112], true) ∧
    withProtocol (fromUNIXSocketPath [47, 116, 109, 112]) 7 = (fromUNIXSocketPath [47, 116, 109, 112], true) ∧
    withInterface (fromUNIXSocketPath [47, 116, 109, 112]) 3 = (fromUNIXSocketPath [47, 116, 109, 112], true) :=
  ⟨Or.inr (by decide),
   (withPort_wrong_family_noop (fromUNIXSocketPath [47, 116, 109, 112]) 80 3).1 (Or.inr (by decide)),
   (withPort_wrong_family_noop (fromUNIXSocketPath [47, 116, 109, 112]) 7 3).2.1 (Or.inr (Or.inr (by decide))),
   (withPort_wrong_family_noop (fromUNIXSocketPath [47, 116, 109, 112]) 80 3).2.2.1 (by decide)⟩

/-- Bitwise AND with a contiguous high mask `2^w - 2^k` keeps exactly the
bits from position `k` up, i.e. rounds down to a multiple of `2^k`, for
values below `2^w`. -/
lemma land_high_mask (x k w : Nat) (hx : x < 2 ^ w) (hkw : k ≤ w) :
    x &&& (2 ^ w - 2 ^ k) = x / 2 ^ k * 2 ^ k := by
  have hmask : (2 : Nat) ^ w - 2 ^ k = (2 ^ (w - k) - 1) <<< k := by
    rw [Nat.shiftLeft_eq, Nat.sub_mul, ← Nat.pow_add, one_mul]
    congr 2
    omega
  have hdiv : x / 2 ^ k * 2 ^ k = (x >>> k) <<< k := by
    rw [Nat.shiftRight_eq_div_pow, Nat.shiftLeft_eq]
  rw [hmask, hdiv]
  apply Nat.eq_of_testBit_eq
  intro i
  rw [Nat.testBit_land, Nat.testBit_shiftLeft, Nat.testBit_shiftLeft,
      Nat.testBit_two_pow_sub_one, Nat.testBit_shiftRight]
  by_cases hik : k ≤ i
  · have h1 : (decide (i ≥ k)) = true := by simp [ge_iff_le, hik]
    rw [h1]
    simp only [Bool.true_and]
    by_cases hiw : i < w
    · have h2 : i - k < w - k := by omega
      have h3 : k + (i - k) = i := by omega
      simp [h2, h3]
    · have h2 : ¬(i - k < w - k) := by omega
      have h3 : x.testBit (k + (i - k)) = false := by
        rw [show k + (i - k) = i by omega]
        exact Nat.testBit_lt_two_pow
          (lt_of_lt_of_le hx (Nat.pow_le_pow_right (by norm_num) (by omega)))
      simp [h2, h3]
  · have h1 : (decide (i ≥ k)) = false := by simp [ge_iff_le, hik]
    rw [h1]
    simp

namespace NetworkAddress

/-- The IPv4 multicast test of the source, rephrased: for byte-valued
address entries, `(ntohl(sin_addr) & 0xf0000000) == 0xe0000000` holds
exactly when the top four bits of the first octet are `1110`. -/
lemma ipv4_isMulticast_eq (b0 b1 b2 b3 p : Nat)
    (h0 : b0 < 256) (h1 : b1 < 256) (h2 : b2 < 256) (h3 : b3 < 256) :
    (NetworkAddress.ipv4 [b0, b1, b2, b3] p).isMulticast = some (decide (b0 / 16 = 14)) := by
  simp only [isMulticast, ntohl4, Option.some_inj]
  rw [decide_eq_decide]
  have hx : ((b0 * 256 + b1) * 256 + b2) * 256 + b3 < 2 ^ 32 := by
    have : (2 : Nat) ^ 32 = 4294967296 := by norm_num
    omega
  rw [show (0xf0000000 : Nat) = 2 ^ 32 - 2 ^ 28 by norm_num]
  rw [land_high_mask _ 28 32 hx (by norm_num)]
  have hp : (2 : Nat) ^ 28 = 268435456 := by norm_num
  rw [hp]
  omega

end NetworkAddress

open NetworkAddress in
/-- C8: `isMulticast()` returns, for every IPv4 address, true exactly when
the top four bits of the first octet are `1110` (so `224.0.0.1` is
multicast and `192.168.1.1` is not); for every IPv6 address, true
exactly when the first stored byte is `0xff`; and for every Ethernet
address, true exactly when the low bit of the first octet is set. -/
theorem isMulticast_characterization (b0 b1 b2 b3 p : Nat)
    (h0 : b0 < 256) (h1 : b1 < 256) (h2 : b2 < 256) (h3 : b3 < 256) :
    ((NetworkAddress.ipv4 [b0, b1, b2, b3] p).isMulticast = some true ↔ b0 / 16 = 14) ∧
    (∀ c0 rest port scope,
       (NetworkAddress.ipv6 (c0 :: rest) port scope).isMulticast = some true ↔ c0 = 255) ∧
    (∀ m0 rest pr ifx hl,
       (NetworkAddress.ethernet (m0 :: rest) pr ifx hl).isMulticast = some true ↔ m0 % 2 = 1) ∧
    (NetworkAddress.ipv4 [224, 0, 0, 1] 0).isMulticast = some true ∧
    (NetworkAddress.ipv4 [192, 168, 1, 1] 0).isMulticast = some false := by
  refine ⟨?_, ?_, ?_, ?_, ?_⟩
  · rw [ipv4_isMulticast_eq b0 b1 b2 b3 p h0 h1 h2 h3]
    simp
  · intro c0 rest port scope
    simp [isMulticast]
  · intro m0 rest pr ifx hl
    simp only [isMulticast, List.headD_cons, Option.some_inj]
    have hm : m0 &&& 1 = m0 % 2 := Nat.and_one_is_mod m0
    constructor
    · intro h
      have hne := of_decide_eq_true h
      rw [hm] at hne
      omega
    · intro h
      apply decide_eq_true
      rw [hm]
      omega
  · rw [ipv4_isMulticast_eq 224 0 0 1 0 (by norm_num) (by norm_num) (by norm_num) (by norm_num)]
    norm_num
  · rw [ipv4_isMulticast_eq 192 168 1 1 0 (by norm_num) (by norm_num) (by norm_num) (by norm_num)]
    norm_num

open NetworkAddress in
/-- C8 witness: the characterization at concrete bytes. -/
theorem isMulticast_characterization_witness :
    ((224 : Nat) < 256 ∧ (0 : Nat) < 256 ∧ (1 : Nat) < 256) ∧
    (((NetworkAddress.ipv4 [224, 0, 0, 1] 0).isMulticast = some true ↔ 224 / 16 = 14) ∧
     (∀ c0 rest port scope,
        (NetworkAddress.ipv6 (c0 :: rest) port scope).isMulticast = some true ↔ c0 = 255) ∧
     (∀ m0 rest pr ifx hl,
        (NetworkAddress.ethernet (m0 :: rest) pr ifx hl).isMulticast = some true ↔ m0 % 2 = 1) ∧
     (NetworkAddress.ipv4 [224, 0, 0, 1] 0).isMulticast = some true ∧
     (NetworkAddress.ipv4 [192, 168, 1, 1] 0).isMulticast = some false) :=
  ⟨⟨by decide, by decide, by decide⟩,
   isMulticast_characterization 224 0 0 1 0 (by decide) (by decide) (by decide) (by decide)⟩

lemma takeWhileB_all (p : Nat → Bool) (A : List Nat) (hA : ∀ a ∈ A, p a = true) :
    A.takeWhile p = A := by
  induction A with
  | nil => rfl
  | cons a as ih =>
    have h1 := hA a (List.mem_cons_self a as)
    have h2 := ih (fun x hx => hA x (List.mem_cons_of_mem a hx))
    simp [List.takeWhile_cons, h1, h2]

lemma takeWhileB_append_stop (p : Nat → Bool) (A : List Nat) (b : Nat) (t : List Nat)
    (hA : ∀ a ∈ A, p a = true) (hb : p b = false) :
    (A ++ b :: t).takeWhile p = A := by
  induction A with
  | nil => simp [List.takeWhile_cons, hb]
  | cons a as ih =>
    have h1 := hA a (List.mem_cons_self a as)
    have h2 := ih (fun x hx => hA x (List.mem_cons_of_mem a hx))
    simp [List.cons_append, List.takeWhile_cons, h1, h2]

open NetworkAddress in
/-- C9 amended: `fromUNIXSocketPath(path).toString()` returns the first
108 bytes of the path (for NUL-free byte-valued paths) — the capacity of
`sun_path` with its terminating NUL — so the round trip holds exactly
for paths of at most 108 bytes (at most 107 staying clear of the
one-byte struct overflow at the boundary), while longer paths are
truncated by `toString`'s 108-bounded `strnlen`, not to the 125-byte
storage budget `kMaxUnixPathLength` the claim refers to. -/
theorem unixSocketPath_toString_truncates (path : List Nat)
    (hpath : ∀ b ∈ path, b ≠ 0 ∧ b < 256) :
    (fromUNIXSocketPath path).toString = some (path.take 108) := by
  have hnz : ∀ b ∈ path, (b != 0) = true := by
    intro b hb
    have := (hpath b hb).1
    simp [this]
  simp only [fromUNIXSocketPath, NetworkAddress.toString, Option.some_inj]
  by_cases hlen : path.length ≤ 107
  · -- the path and its NUL terminator fit inside sun_path
    have hmin : min path.length kMaxUnixPathLength = path.length := by
      simp only [kMaxUnixPathLength]
      omega
    have htk : path.take path.length = path := List.take_length path
    have hfit : (path ++ [0]).length ≤ 108 := by
      simp only [List.length_append, List.length_cons, List.length_nil]
      omega
    have hsun : sunPathBytes path
        = path ++ 0 :: List.replicate (108 - (path.length + 1)) 0 := by
      simp only [sunPathBytes, hmin, htk, List.take_of_length_le hfit]
      simp
    rw [hsun]
    have hlen108 : (path ++ 0 :: List.replicate (108 - (path.length + 1)) 0).length ≤ 108 := by
      simp only [List.length_append, List.length_cons, List.length_replicate]
      omega
    have hstrn : strnlenB (path ++ 0 :: List.replicate (108 - (path.length + 1)) 0) 108
        = path.length := by
      simp only [strnlenB, List.take_of_length_le hlen108]
      rw [takeWhileB_append_stop _ path 0 _ hnz (by decide)]
    rw [hstrn]
    rw [List.take_left path (0 :: List.replicate (108 - (path.length + 1)) 0)]
    rw [List.take_of_length_le (by omega)]
  · -- only the first 108 bytes of the path survive in sun_path
    have h108 : 108 ≤ min path.length kMaxUnixPathLength := by
      simp only [kMaxUnixPathLength]
      omega
    have hsun : sunPathBytes path = path.take 108 := by
      simp only [sunPathBytes]
      rw [show 108 - (min path.length kMaxUnixPathLength + 1) = 0 by omega]
      rw [List.replicate_zero, List.append_nil]
      rw [List.take_append_of_le_length]
      · rw [List.take_take]
        congr 1
        omega
      · rw [List.length_take]
        omega
    rw [hsun]
    have hlen1 : (path.take 108).length = 108 := by
      rw [List.length_take]
      omega
    have hstrn : strnlenB (path.take 108) 108 = 108 := by
      simp only [strnlenB]
      rw [List.take_of_length_le (le_of_eq hlen1)]
      rw [takeWhileB_all _ _ (fun b hb => hnz b (List.mem_of_mem_take hb))]
      exact hlen1
    rw [hstrn, List.take_of_length_le (le_of_eq hlen1)]

open NetworkAddress in
/-- C9 witness: the round trip at the concrete path `/tmp/socket`. -/
theorem unixSocketPath_toString_truncates_witness :
    (∀ b ∈ [47, 116, 109, 112, 47, 115, 111, 99, 107, 101, 116], b ≠ 0 ∧ b < 256) ∧
    (fromUNIXSocketPath [47, 116, 109, 112, 47, 115, 111, 99, 107, 101, 116]).toString
      = some (List.take 108 [47, 116, 109, 112, 47, 115, 111, 99, 107, 101, 116]) :=
  ⟨by decide,
   unixSocketPath_toString_truncates [47, 116, 109, 112, 47, 115, 111, 99, 107, 101, 116]
     (by decide)⟩

open NetworkAddress in
/-- C9 counterexample: a path of 109 bytes fits within the claim's storage
budget (`kMaxUnixPathLength` = 125), yet `toString` does not return it —
only its first 108 bytes survive `strnlen(sun_path, 108)`. -/
theorem unixSocketPath_claim_counterexample :
    (List.replicate 109 97).length ≤ kMaxUnixPathLength ∧
    (fromUNIXSocketPath (List.replicate 109 97)).toString = some (List.replicate 108 97) ∧
    (fromUNIXSocketPath (List.replicate 109 97)).toString ≠ some (List.replicate 109 97) := by
  refine ⟨by decide, by decide, by decide⟩

lemma hexDigitVal_lt (b : Nat) (h : isHexDigitByte b = true) : hexDigitVal b < 16 := by
  simp only [isHexDigitByte, Bool.or_eq_true, Bool.and_eq_true, decide_eq_true_eq] at h
  simp only [hexDigitVal]
  split
  · omega
  · split <;> omega

lemma hexFold_lt (p : List Nat) : ∀ acc, (∀ b ∈ p, isHexDigitByte b = true) →
    List.foldl (fun a b => a * 16 + hexDigitVal b) acc p < (acc + 1) * 16 ^ p.length := by
  induction p with
  | nil => intro acc _; simp
  | cons b bs ih =>
    intro acc h
    have hd := hexDigitVal_lt b (h b (List.mem_cons_self b bs))
    have hrec := ih (acc * 16 + hexDigitVal b)
      (fun x hx => h x (List.mem_cons_of_mem b hx))
    calc List.foldl (fun a b => a * 16 + hexDigitVal b) acc (b :: bs)
        = List.foldl (fun a b => a * 16 + hexDigitVal b) (acc * 16 + hexDigitVal b) bs := rfl
      _ < (acc * 16 + hexDigitVal b + 1) * 16 ^ bs.length := hrec
      _ ≤ ((acc + 1) * 16) * 16 ^ bs.length := by
            apply Nat.mul_le_mul_right
            omega
      _ = (acc + 1) * 16 ^ (b :: bs).length := by
            rw [List.length_cons, pow_succ]
            ring

lemma hexValOf_lt (p : List Nat) (h : ∀ b ∈ p, isHexDigitByte b = true) :
    hexValOf p < 16 ^ p.length := by
  have := hexFold_lt p 0 h
  simpa [hexValOf] using this

lemma hex_not_ws (b : Nat) (h : isHexDigitByte b = true) : isWsByte b = false := by
  simp only [isHexDigitByte, Bool.or_eq_true, Bool.and_eq_true, decide_eq_true_eq] at h
  cases hw : isWsByte b
  · rfl
  · exfalso
    simp only [isWsByte, Bool.or_eq_true, Bool.and_eq_true, decide_eq_true_eq,
      beq_iff_eq] at hw
    omega

namespace NetworkAddress

/-- Stream-reading a nonempty pure-hex-digit part yields exactly its hex
value. -/
lemma streamHexInt_pure_hex (p : List Nat) (hne : p ≠ [])
    (hhex : ∀ b ∈ p, isHexDigitByte b = true) :
    streamHexInt p = some ((hexValOf p : Int)) := by
  cases p with
  | nil => exact absurd rfl hne
  | cons b bs =>
    have hb := hhex b (List.mem_cons_self b bs)
    have hbv := hb
    simp only [isHexDigitByte, Bool.or_eq_true, Bool.and_eq_true, decide_eq_true_eq] at hbv
    have hdw : (b :: bs).dropWhile isWsByte = b :: bs := by
      rw [List.dropWhile_cons, hex_not_ws b hb]
      simp
    have hneg : streamSign (b :: bs) = false := by
      cases hq : streamSign (b :: bs)
      · rfl
      · exfalso
        rw [streamSign, List.headD_cons] at hq
        have := eq_of_beq hq
        omega
    have hsign : streamAfterSign (b :: bs) = b :: bs := by
      rw [streamAfterSign, List.headD_cons]
      have h43 : (b == 43) = false := by
        cases hq : (b == 43)
        · rfl
        · exact absurd (eq_of_beq hq) (by omega)
      have h45 : (b == 45) = false := by
        cases hq : (b == 45)
        · rfl
        · exact absurd (eq_of_beq hq) (by omega)
      rw [h43, h45]
      rfl
    have hox : streamBody (b :: bs) = b :: bs := by
      rw [streamBody]
      cases hq : ((b :: bs).headD 0 == 48 && ((b :: bs).tail.headD 0 == 120 ||
          (b :: bs).tail.headD 0 == 88))
      · rfl
      · exfalso
        rw [List.headD_cons, List.tail_cons, Bool.and_eq_true, Bool.or_eq_true] at hq
        obtain ⟨h48, hor⟩ := hq
        cases bs with
        | nil =>
          rcases hor with hq2 | hq2 <;> exact absurd (eq_of_beq hq2) (by decide)
        | cons c cs =>
          have hc := hhex c (List.mem_cons_of_mem b (List.mem_cons_self c cs))
          simp only [isHexDigitByte, Bool.or_eq_true, Bool.and_eq_true,
            decide_eq_true_eq] at hc
          simp only [List.headD_cons] at hor
          rcases hor with hq2 | hq2
          · have := eq_of_beq hq2
            omega
          · have := eq_of_beq hq2
            omega
    have hds : (b :: bs).takeWhile isHexDigitByte = b :: bs := takeWhileB_all _ _ hhex
    rw [streamHexInt]
    simp only [hdw, hsign, hox, hds, hneg]
    simp

/-- `macPartByte` on a pure-hex-digit part: accepted exactly when nonempty
and at most two bytes, in which case the value is the part's hex value
(automatically at most 255). -/
lemma macPartByte_pure_hex (p : List Nat) (hhex : ∀ b ∈ p, isHexDigitByte b = true) :
    macPartByte p = if p.isEmpty || 2 < p.length then none else some (hexValOf p) := by
  by_cases hne : p.isEmpty
  · simp [macPartByte, hne]
  · by_cases hlen : 2 < p.length
    · simp [macPartByte, hne, hlen]
    · have hne' : p ≠ [] := by
        cases p
        · exact absurd rfl hne
        · simp
      have hbound : hexValOf p < 256 := by
        have h1 := hexValOf_lt p hhex
        have h2 : (16 : Nat) ^ p.length ≤ 16 ^ 2 := Nat.pow_le_pow_right (by norm_num) (by omega)
        have h3 : (16 : Nat) ^ 2 = 256 := by norm_num
        omega
      simp only [macPartByte, hne, hlen, if_false, Bool.false_eq_true,
        streamHexInt_pure_hex p hne' hhex]
      have hv1 : ¬((hexValOf p : Int) < 0 ∨ 255 < (hexValOf p : Int)) := by
        push_neg
        constructor <;> omega
      rw [if_neg hv1]
      simp [hne, hlen]

end NetworkAddress

lemma mapOpt_some_mem (f : List Nat → Option Nat) (gs : List (List Nat)) :
    ∀ vs, mapOpt f gs = some vs → ∀ g ∈ gs, ∃ v, f g = some v := by
  induction gs with
  | nil => intro vs _ g hg; exact absurd hg (by simp)
  | cons g0 gtl ih =>
    intro vs h g hg
    simp only [mapOpt] at h
    cases e1 : f g0 with
    | none => rw [e1] at h; exact absurd h (by simp)
    | some v =>
      rw [e1] at h
      cases e2 : mapOpt f gtl with
      | none => rw [e2] at h; exact absurd h (by simp)
      | some vs' =>
        rw [e2] at h
        rcases List.mem_cons.1 hg with hg | hg
        · exact ⟨v, hg ▸ e1⟩
        · exact ih vs' e2 g hg

lemma mapOpt_isSome_of_forall (f : List Nat → Option Nat) (gs : List (List Nat))
    (h : ∀ g ∈ gs, (f g).isSome = true) : (mapOpt f gs).isSome = true := by
  induction gs with
  | nil => rfl
  | cons g0 gtl ih =>
    have h0 := h g0 (List.mem_cons_self g0 gtl)
    obtain ⟨v, hv⟩ := Option.isSome_iff_exists.1 h0
    have hrec := ih (fun g hg => h g (List.mem_cons_of_mem g0 hg))
    obtain ⟨vs, hvs⟩ := Option.isSome_iff_exists.1 hrec
    simp [mapOpt, hv, hvs]

open NetworkAddress in
/-- C6 counterexample: the input `00:1A:2B:3C:4D:+5` (bytes below) has a
final part `+5` that is not a string of at most two hex digits, so the
claim's rule demands an absent result — yet `fromMACString` accepts it,
because the stream hex read consumes the sign byte. -/
theorem fromMACString_claim_counterexample :
    fromMACString [48, 48, 58, 49, 65, 58, 50, 66, 58, 51, 67, 58, 52, 68, 58, 43, 53] =
      some (NetworkAddress.ethernet [0, 26, 43, 60, 77, 5] 0 0 6) ∧
    ¬ macRuleSpec [48, 48, 58, 49, 65, 58, 50, 66, 58, 51, 67, 58, 52, 68, 58, 43, 53] := by
  exact ⟨by decide, by decide⟩

open NetworkAddress in
/-- C6 amended: `fromMACString` splits on `:` with getline semantics and
accepts exactly six nonempty parts of at most two bytes whose C++ stream
hex read yields a value in `[0, 255]`; on inputs whose parts consist
only of hex digits this coincides with the claim's rule (exactly six
nonempty parts of at most two hex digits each), but the stream read also
accepts sign and whitespace prefixes such as `+5`.  On success the
result is the Ethernet address built from the six parsed bytes with
protocol 0 and no interface, as the claim states. -/
theorem fromMACString_characterization :
    (∀ s, (getlineSplit 58 s).all (fun p => p.all isHexDigitByte) = true →
       ((fromMACString s).isSome = true ↔ macRuleSpec s)) ∧
    (∀ s a, fromMACString s = some a →
       ∃ vs, mapOpt macPartByte (getlineSplit 58 s) = some vs ∧
             a = NetworkAddress.ethernet vs 0 0 6) ∧
    fromMACString [48, 48, 58, 49, 65, 58, 50, 66, 58, 51, 67, 58, 52, 68, 58, 53, 69] =
      some (NetworkAddress.ethernet [0, 26, 43, 60, 77, 94] 0 0 6) := by
  refine ⟨?_, ?_, by decide⟩
  · intro s hhex
    have hx : ∀ p ∈ getlineSplit 58 s, ∀ b ∈ p, isHexDigitByte b = true := by
      intro p hp b hb
      have h1 := (List.all_eq_true.1 hhex) p hp
      exact (List.all_eq_true.1 h1) b hb
    constructor
    · intro h
      by_cases hlen : (getlineSplit 58 s).length = 6
      · refine ⟨hlen, ?_⟩
        simp only [fromMACString, hlen, if_true] at h
        cases e : mapOpt macPartByte (getlineSplit 58 s) with
        | none => rw [e] at h; exact absurd h (by simp)
        | some bytes =>
          intro p hp
          obtain ⟨v, hv⟩ := mapOpt_some_mem macPartByte (getlineSplit 58 s) bytes e p hp
          rw [macPartByte_pure_hex p (hx p hp)] at hv
          by_cases hcond : (p.isEmpty || decide (2 < p.length)) = true
          · rw [if_pos hcond] at hv
            exact absurd hv (by simp)
          · simp only [Bool.or_eq_true, decide_eq_true_eq, not_or] at hcond
            obtain ⟨hne, hlen2⟩ := hcond
            refine ⟨?_, by omega, List.all_eq_true.2 (hx p hp), ?_⟩
            · intro hh
              rw [hh] at hne
              exact hne rfl
            · have hb := hexValOf_lt p (hx p hp)
              have h2 : (16 : Nat) ^ p.length ≤ 16 ^ 2 :=
                Nat.pow_le_pow_right (by norm_num) (by omega)
              have h3 : (16 : Nat) ^ 2 = 256 := by norm_num
              omega
      · simp only [fromMACString, hlen, if_false] at h
        exact absurd h (by simp)
    · intro hrule
      obtain ⟨hlen, hall⟩ := hrule
      have hsome : ∀ p ∈ getlineSplit 58 s, (macPartByte p).isSome = true := by
        intro p hp
        obtain ⟨hne, hlen2, _, _⟩ := hall p hp
        rw [macPartByte_pure_hex p (hx p hp)]
        have hc : (p.isEmpty || decide (2 < p.length)) = false := by
          cases p
          · exact absurd rfl hne
          · simp only [List.isEmpty_cons, Bool.false_or, decide_eq_false_iff_not]
            omega
        rw [hc]
        rfl
      have := mapOpt_isSome_of_forall macPartByte (getlineSplit 58 s) hsome
      obtain ⟨vs, hvs⟩ := Option.isSome_iff_exists.1 this
      simp [fromMACString, hlen, hvs]
  · intro s a h
    by_cases hlen : (getlineSplit 58 s).length = 6
    · simp only [fromMACString, hlen, if_true] at h
      cases e : mapOpt macPartByte (getlineSplit 58 s) with
      | none => rw [e] at h; exact absurd h (by simp)
      | some vs =>
        rw [e] at h
        exact ⟨vs, rfl, (Option.some.inj h).symm⟩
    · simp only [fromMACString, hlen, if_false] at h
      exact absurd h (by simp)

open NetworkAddress in
/-- C6 witness: the amended characterization applied to the pure-hex
input `00:1A:2B:3C:4D:5E`. -/
theorem fromMACString_characterization_witness :
    ((getlineSplit 58 [48, 48, 58, 49, 65, 58, 50, 66, 58, 51, 67, 58, 52, 68, 58, 53, 69]).all
       (fun p => p.all isHexDigitByte) = true) ∧
    ((fromMACString [48, 48, 58, 49, 65, 58, 50, 66, 58, 51, 67, 58, 52, 68, 58, 53, 69]).isSome = true ↔
       macRuleSpec [48, 48, 58, 49, 65, 58, 50, 66, 58, 51, 67, 58, 52, 68, 58, 53, 69]) :=
  ⟨by decide,
   fromMACString_characterization.1
     [48, 48, 58, 49, 65, 58, 50, 66, 58, 51, 67, 58, 52, 68, 58, 53, 69] (by decide)⟩

lemma rlast_isSome_of_mem (c : Nat) (s : List Nat) (h : c ∈ s) :
    (rlast c s).isSome = true := by
  induction s with
  | nil => exact absurd h (by simp)
  | cons b t ih =>
    simp only [rlast]
    cases e : rlast c t with
    | some i => rfl
    | none =>
      rcases List.mem_cons.1 h with hh | hh
      · rw [if_pos hh.symm]
        rfl
      · have := ih hh
        rw [e] at this
        exact absurd this (by simp)

lemma mem_of_rlast_some (c : Nat) (s : List Nat) :
    ∀ i, rlast c s = some i → c ∈ s := by
  induction s with
  | nil => intro i h; exact absurd h (by simp [rlast])
  | cons b t ih =>
    intro i h
    simp only [rlast] at h
    cases e : rlast c t with
    | some j => exact List.mem_cons_of_mem b (ih j e)
    | none =>
      rw [e] at h
      by_cases hbc : b = c
      · exact hbc ▸ List.mem_cons_self b t
      · rw [if_neg hbc] at h
        exact absurd h (by simp)

lemma rlast_lt_length (c : Nat) (s : List Nat) :
    ∀ i, rlast c s = some i → i < s.length := by
  induction s with
  | nil => intro i h; exact absurd h (by simp [rlast])
  | cons b t ih =>
    intro i h
    simp only [rlast] at h
    cases e : rlast c t with
    | some j =>
      rw [e] at h
      have := ih j e
      have hi : i = j + 1 := (Option.some.inj h).symm
      simp only [List.length_cons]
      omega
    | none =>
      rw [e] at h
      by_cases hbc : b = c
      · rw [if_pos hbc] at h
        have hi : i = 0 := (Option.some.inj h).symm
        simp only [List.length_cons]
        omega
      · rw [if_neg hbc] at h
        exact absurd h (by simp)

lemma firstIdx_isSome_of_mem (c : Nat) (s : List Nat) (h : c ∈ s) :
    (firstIdx c s).isSome = true := by
  induction s with
  | nil => exact absurd h (by simp)
  | cons b t ih =>
    simp only [firstIdx]
    by_cases hbc : b = c
    · rw [if_pos hbc]
      rfl
    · rw [if_neg hbc]
      rcases List.mem_cons.1 h with hh | hh
      · exact absurd hh.symm hbc
      · have := ih hh
        obtain ⟨k, hk⟩ := Option.isSome_iff_exists.1 this
        rw [hk]
        rfl

/-- When the last occurrence of `c` sits at `l`, `c` occurs exactly once
in `s` precisely when the first occurrence also sits at `l`. -/
lemma firstIdx_eq_rlast_iff_count_one (c : Nat) (s : List Nat) :
    ∀ l, rlast c s = some l → (firstIdx c s = some l ↔ List.count c s = 1) := by
  induction s with
  | nil => intro l h; exact absurd h (by simp [rlast])
  | cons b t ih =>
    intro l h
    simp only [rlast] at h
    cases e : rlast c t with
    | some i =>
      rw [e] at h
      have hl : l = i + 1 := (Option.some.inj h).symm
      have hmem : c ∈ t := mem_of_rlast_some c t i e
      have hcnt : 1 ≤ List.count c t := by
        have := (List.count_eq_zero (a := c) (l := t)).not
        rcases Nat.eq_zero_or_pos (List.count c t) with hz | hpos
        · exact absurd ((List.count_eq_zero).1 hz) (by simp [hmem])
        · omega
      by_cases hbc : b = c
      · apply iff_of_false
        · simp only [firstIdx, if_pos hbc]
          intro hh
          have := Option.some.inj hh
          omega
        · rw [List.count_cons]
          have : (b == c) = true := by simp [hbc]
          rw [this]
          simp only [if_true]
          omega
      · have hbeq : (b == c) = false := by simp [hbc]
        simp only [firstIdx, if_neg hbc, List.count_cons, hbeq, if_false]
        have hft := firstIdx_isSome_of_mem c t hmem
        obtain ⟨k, hk⟩ := Option.isSome_iff_exists.1 hft
        rw [hk]
        have ihk := ih i e
        rw [hk] at ihk
        constructor
        · intro hh
          simp only [Option.map_some', Option.some_inj] at hh
          have : k = i := by omega
          simp only [Bool.false_eq_true, if_false, Nat.add_zero]
          exact ihk.1 (by rw [this])
        · intro hh
          simp only [Bool.false_eq_true, if_false, Nat.add_zero] at hh
          have := ihk.2 hh
          have hki : k = i := Option.some.inj this
          simp only [Option.map_some', Option.some_inj]
          omega
    | none =>
      rw [e] at h
      by_cases hbc : b = c
      · rw [if_pos hbc] at h
        have hl : l = 0 := (Option.some.inj h).symm
        have hnm : c ∉ t := by
          intro hmem
          have := rlast_isSome_of_mem c t hmem
          rw [e] at this
          exact absurd this (by simp)
        apply iff_of_true
        · simp [firstIdx, hbc, hl]
        · rw [List.count_cons]
          have h1 : (b == c) = true := by simp [hbc]
          have h2 : List.count c t = 0 := List.count_eq_zero.2 hnm
          rw [h1, h2]
          simp
      · rw [if_neg hbc] at h
        exact absurd h (by simp)

open NetworkAddress in
/-- C5 counterexample: on the input `a:b:]c` (bytes below) the source
splits only when the last `]` lies at or before the last `:`; here the
`]` lies after it, so the source keeps the whole string as host, while
the claim's rule (split when a `]` appears at/after the last `:`) splits
off the port text `]c`. -/
theorem splitHostPort_claim_counterexample :
    splitHostPort [97, 58, 98, 58, 93, 99] = ([97, 58, 98, 58, 93, 99], []) ∧
    splitRuleSpec [97, 58, 98, 58, 93, 99] = ([97, 58, 98], [93, 99]) ∧
    splitHostPort [97, 58, 98, 58, 93, 99] ≠ splitRuleSpec [97, 58, 98, 58, 93, 99] := by
  exact ⟨by decide, by decide, by decide⟩

open NetworkAddress in
/-- C5 amended: `fromIPString` splits its input at the last `:` exactly
when that `:` is the only `:` present, or the last `]` — if any —
appears at or before (not after) that position; otherwise the entire
string is the host with no port text.  Moreover `fromIPString` is total
into an optional: on every input it returns either an absent result or
a valid address — it never throws. -/
theorem splitHostPort_characterization :
    (∀ s, rlast 58 s = none → splitHostPort s = (s, [])) ∧
    (∀ s lastloc, rlast 58 s = some lastloc →
       ((splitHostPort s = (s.take lastloc, s.drop (lastloc + 1)) ↔
          (List.count 58 s = 1 ∨ ∃ j, rlast 93 s = some j ∧ j ≤ lastloc)) ∧
        (¬(List.count 58 s = 1 ∨ ∃ j, rlast 93 s = some j ∧ j ≤ lastloc) →
          splitHostPort s = (s, [])))) ∧
    (∀ s dp pp, fromIPString s dp pp = none ∨
       ∃ a, fromIPString s dp pp = some a ∧ a.valid = true) := by
  refine ⟨?_, ?_, ?_⟩
  · intro s h
    simp only [splitHostPort, h]
  · intro s lastloc h
    have hlt := rlast_lt_length 58 s lastloc h
    have hcondA : (firstIdx 58 s != some lastloc) = false ↔ List.count 58 s = 1 := by
      rw [show ((firstIdx 58 s != some lastloc) = false ↔ firstIdx 58 s = some lastloc) from by
        simp [bne]]
      exact firstIdx_eq_rlast_iff_count_one 58 s lastloc h
    have hcondB : (match rlast 93 s with
        | none => true
        | some j => decide (lastloc < j)) = false ↔
        (∃ j, rlast 93 s = some j ∧ j ≤ lastloc) := by
      cases e : rlast 93 s with
      | none =>
        apply iff_of_false
        · simp
        · rintro ⟨j, hj, _⟩
          exact absurd hj (by simp)
      | some j =>
        constructor
        · intro hq
          simp only [decide_eq_false_iff_not, not_lt] at hq
          exact ⟨j, rfl, hq⟩
        · rintro ⟨j', hj', hle⟩
          have hjj : j' = j := (Option.some.inj hj').symm
          subst hjj
          simp only [decide_eq_false_iff_not, not_lt]
          exact hle
    have hne : (s, ([] : List Nat)) ≠ (s.take lastloc, s.drop (lastloc + 1)) := by
      intro hq
      have h1 : s = s.take lastloc := congrArg Prod.fst hq
      have h2 : s.length = (s.take lastloc).length := congrArg List.length h1
      rw [List.length_take] at h2
      omega
    cases hns : (firstIdx 58 s != some lastloc) && (match rlast 93 s with
        | none => true
        | some j => decide (lastloc < j))
    · have hsplit : splitHostPort s = (s.take lastloc, s.drop (lastloc + 1)) := by
        simp only [splitHostPort, h, hns, Bool.false_eq_true, if_false]
      have hcond : List.count 58 s = 1 ∨ ∃ j, rlast 93 s = some j ∧ j ≤ lastloc := by
        rcases Bool.and_eq_false_iff.1 hns with hq | hq
        · exact Or.inl (hcondA.1 hq)
        · exact Or.inr (hcondB.1 hq)
      exact ⟨iff_of_true hsplit hcond, fun hn => absurd hcond hn⟩
    · rw [Bool.and_eq_true] at hns
      obtain ⟨hA, hB⟩ := hns
      have hsplit : splitHostPort s = (s, []) := by
        simp only [splitHostPort, h, hA, hB, Bool.true_and, if_true]
      have hnc : ¬(List.count 58 s = 1 ∨ ∃ j, rlast 93 s = some j ∧ j ≤ lastloc) := by
        rintro (hq | hq)
        · have := hcondA.2 hq
          rw [this] at hA
          exact absurd hA (by simp)
        · have := hcondB.2 hq
          rw [this] at hB
          exact absurd hB (by simp)
      refine ⟨iff_of_false ?_ hnc, fun _ => hsplit⟩
      rw [hsplit]
      exact hne
  · intro s dp pp
    simp only [fromIPString]
    split
    · exact Or.inl rfl
    · split
      · exact Or.inr ⟨_, rfl, rfl⟩
      · split
        · exact Or.inr ⟨_, rfl, rfl⟩
        · exact Or.inl rfl

open NetworkAddress in
/-- C5 witness: the split characterization at the concrete input `a:b`
(one colon: split there) and totality at a garbage input. -/
theorem splitHostPort_characterization_witness :
    rlast 58 [97, 58, 98] = some 1 ∧
    (((splitHostPort [97, 58, 98] =
        (List.take 1 [97, 58, 98], List.drop 2 [97, 58, 98])) ↔
       (List.count 58 [97, 58, 98] = 1 ∨
        ∃ j, rlast 93 [97, 58, 98] = some j ∧ j ≤ 1)) ∧
     (¬(List.count 58 [97, 58, 98] = 1 ∨
        ∃ j, rlast 93 [97, 58, 98] = some j ∧ j ≤ 1) →
       splitHostPort [97, 58, 98] = ([97, 58, 98], []))) ∧
    (fromIPString [97, 58, 98] 0 true = none ∨
     ∃ a, fromIPString [97, 58, 98] 0 true = some a ∧ a.valid = true) :=
  ⟨by decide,
   splitHostPort_characterization.2.1 [97, 58, 98] 1 (by decide),
   splitHostPort_characterization.2.2 [97, 58, 98] 0 true⟩

/-- Core properties of the fuel-indexed decimal digit expansion: it is
nonempty, its digits are below 10, folding it back under any accumulator
recovers the value, and its length is bounded by any sufficient power of
ten. -/
lemma decReprAux_props : ∀ fuel n, n < fuel →
    decReprAux fuel n ≠ [] ∧
    (∀ d ∈ decReprAux fuel n, d < 10) ∧
    (∀ acc, List.foldl (fun a d => a * 10 + d) acc (decReprAux fuel n) =
       acc * 10 ^ (decReprAux fuel n).length + n) ∧
    (∀ k, 0 < k → n < 10 ^ k → (decReprAux fuel n).length ≤ k) := by
  intro fuel
  induction fuel with
  | zero => intro n h; omega
  | succ f ih =>
    intro n h
    by_cases h10 : n < 10
    · simp only [decReprAux, if_pos h10]
      refine ⟨by simp, by simp [h10], ?_, ?_⟩
      · intro acc
        simp [pow_one]
      · intro k hk _
        simp only [List.length_cons, List.length_nil]
        omega
    · have hm : n / 10 < f := by omega
      obtain ⟨hne, hdig, hfold, hlen⟩ := ih (n / 10) hm
      simp only [decReprAux, if_neg h10]
      refine ⟨by simp, ?_, ?_, ?_⟩
      · intro d hd
        rcases List.mem_append.1 hd with hd | hd
        · exact hdig d hd
        · simp only [List.mem_singleton] at hd
          omega
      · intro acc
        rw [List.foldl_append, hfold acc]
        simp only [List.foldl_cons, List.foldl_nil, List.length_append,
          List.length_cons, List.length_nil]
        rw [pow_succ]
        have : n = n / 10 * 10 + n % 10 := by omega
        ring_nf
        omega
      · intro k hk hnk
        have hk2 : 2 ≤ k := by
          by_contra hc
          have : k = 1 := by omega
          rw [this, pow_one] at hnk
          omega
        have hmk : n / 10 < 10 ^ (k - 1) := by
          have h1 : (10 : Nat) ^ k = 10 ^ (k - 1) * 10 := by
            rw [← pow_succ]
            congr 1
            omega
          rw [h1] at hnk
          exact Nat.div_lt_of_lt_mul (by omega)
        have := hlen (k - 1) (by omega) hmk
        simp only [List.length_append, List.length_cons, List.length_nil]
        omega

lemma decRepr_props (n : Nat) :
    decRepr n ≠ [] ∧
    (∀ d ∈ decRepr n, d < 10) ∧
    (∀ acc, List.foldl (fun a d => a * 10 + d) acc (decRepr n) =
       acc * 10 ^ (decRepr n).length + n) ∧
    (∀ k, 0 < k → n < 10 ^ k → (decRepr n).length ≤ k) :=
  decReprAux_props (n + 1) n (by omega)

lemma foldl_dec_map_add48 : ∀ (ds : List Nat) (acc : Nat),
    List.foldl (fun a b => a * 10 + (b - 48)) acc (ds.map (· + 48)) =
    List.foldl (fun a d => a * 10 + d) acc ds := by
  intro ds
  induction ds with
  | nil => intro acc; rfl
  | cons d dt ih =>
    intro acc
    simp only [List.map_cons, List.foldl_cons]
    rw [show d + 48 - 48 = d by omega]
    exact ih (acc * 10 + d)

lemma decStr_ne_nil (n : Nat) : decStr n ≠ [] := by
  have := (decRepr_props n).1
  simp only [decStr]
  intro h
  exact this (List.map_eq_nil.1 h)

lemma decStr_all_digits (n : Nat) : ∀ b ∈ decStr n, isDigitByte b = true := by
  intro b hb
  simp only [decStr, List.mem_map] at hb
  obtain ⟨d, hd, rfl⟩ := hb
  have := (decRepr_props n).2.1 d hd
  simp only [isDigitByte, Bool.and_eq_true, decide_eq_true_eq]
  omega

lemma decValOf_decStr (n : Nat) : decValOf (decStr n) = n := by
  simp only [decValOf, decStr]
  rw [foldl_dec_map_add48]
  have := (decRepr_props n).2.2.1 0
  simpa using this

lemma parseDec_decStr (n : Nat) : parseDec (decStr n) = some n := by
  have hne : (decStr n).isEmpty = false := by
    cases h : decStr n
    · exact absurd h (decStr_ne_nil n)
    · rfl
  have hall : (decStr n).all isDigitByte = true := List.all_eq_true.2 (decStr_all_digits n)
  simp [parseDec, hne, hall, decValOf_decStr]

lemma decStr_length_le (n k : Nat) (hk : 0 < k) (h : n < 10 ^ k) :
    (decStr n).length ≤ k := by
  simp only [decStr, List.length_map]
  exact (decRepr_props n).2.2.2 k hk h

lemma parsePortNum_decStr (p : Nat) (hp : p ≤ 65535) :
    NetworkAddress.parsePortNum (decStr p) = some p := by
  simp [NetworkAddress.parsePortNum, parseDec_decStr, hp]

lemma decOctet_decStr (b : Nat) (hb : b ≤ 255) :
    NetworkAddress.decOctet (decStr b) = some b := by
  have hne : (decStr b).isEmpty = false := by
    cases h : decStr b
    · exact absurd h (decStr_ne_nil b)
    · rfl
  have hlen : ¬(3 < (decStr b).length) := by
    have := decStr_length_le b 3 (by norm_num) (by norm_num; omega)
    omega
  have hall : (decStr b).all isDigitByte = true := List.all_eq_true.2 (decStr_all_digits b)
  simp [NetworkAddress.decOctet, hne, hlen, hall, decValOf_decStr, hb]

/-- Core properties of the fuel-indexed hex digit expansion. -/
lemma hexReprAux_props : ∀ fuel n, n < fuel →
    hexReprAux fuel n ≠ [] ∧
    (∀ d ∈ hexReprAux fuel n, d < 16) ∧
    (∀ acc, List.foldl (fun a d => a * 16 + d) acc (hexReprAux fuel n) =
       acc * 16 ^ (hexReprAux fuel n).length + n) ∧
    (∀ k, 0 < k → n < 16 ^ k → (hexReprAux fuel n).length ≤ k) := by
  intro fuel
  induction fuel with
  | zero => intro n h; omega
  | succ f ih =>
    intro n h
    by_cases h16 : n < 16
    · simp only [hexReprAux, if_pos h16]
      refine ⟨by simp, by simp [h16], ?_, ?_⟩
      · intro acc
        simp [pow_one]
      · intro k hk _
        simp only [List.length_cons, List.length_nil]
        omega
    · have hm : n / 16 < f := by omega
      obtain ⟨hne, hdig, hfold, hlen⟩ := ih (n / 16) hm
      simp only [hexReprAux, if_neg h16]
      refine ⟨by simp, ?_, ?_, ?_⟩
      · intro d hd
        rcases List.mem_append.1 hd with hd | hd
        · exact hdig d hd
        · simp only [List.mem_singleton] at hd
          omega
      · intro acc
        rw [List.foldl_append, hfold acc]
        simp only [List.foldl_cons, List.foldl_nil, List.length_append,
          List.length_cons, List.length_nil]
        rw [pow_succ]
        have : n = n / 16 * 16 + n % 16 := by omega
        ring_nf
        omega
      · intro k hk hnk
        have hk2 : 2 ≤ k := by
          by_contra hc
          have : k = 1 := by omega
          rw [this, pow_one] at hnk
          omega
        have hmk : n / 16 < 16 ^ (k - 1) := by
          have h1 : (16 : Nat) ^ k = 16 ^ (k - 1) * 16 := by
            rw [← pow_succ]
            congr 1
            omega
          rw [h1] at hnk
          exact Nat.div_lt_of_lt_mul (by omega)
        have := hlen (k - 1) (by omega) hmk
        simp only [List.length_append, List.length_cons, List.length_nil]
        omega

lemma hexRepr_props (n : Nat) :
    hexRepr n ≠ [] ∧
    (∀ d ∈ hexRepr n, d < 16) ∧
    (∀ acc, List.foldl (fun a d => a * 16 + d) acc (hexRepr n) =
       acc * 16 ^ (hexRepr n).length + n) ∧
    (∀ k, 0 < k → n < 16 ^ k → (hexRepr n).length ≤ k) :=
  hexReprAux_props (n + 1) n (by omega)

lemma hexStr_ne_nil (n : Nat) : hexStr n ≠ [] := by
  have := (hexRepr_props n).1
  simp only [hexStr]
  intro h
  exact this (List.map_eq_nil.1 h)

lemma hexStr_all_hex (n : Nat) : ∀ b ∈ hexStr n, isHexDigitByte b = true := by
  intro b hb
  simp only [hexStr, List.mem_map] at hb
  obtain ⟨d, hd, rfl⟩ := hb
  have := (hexRepr_props n).2.1 d hd
  simp only [hexLowerByte, isHexDigitByte, Bool.or_eq_true, Bool.and_eq_true,
    decide_eq_true_eq]
  split
  · omega
  · omega

lemma foldl_hex_map_lower : ∀ (ds : List Nat) (acc : Nat), (∀ d ∈ ds, d < 16) →
    List.foldl (fun a b => a * 16 + hexDigitVal b) acc (ds.map hexLowerByte) =
    List.foldl (fun a d => a * 16 + d) acc ds := by
  intro ds
  induction ds with
  | nil => intro acc _; rfl
  | cons d dt ih =>
    intro acc h
    have hd := h d (List.mem_cons_self d dt)
    simp only [List.map_cons, List.foldl_cons]
    rw [show hexDigitVal (hexLowerByte d) = d by
      by_cases hd10 : d < 10
      · simp only [hexLowerByte, hexDigitVal, if_pos hd10]
        rw [if_pos (by omega : 48 + d ≤ 57)]
        omega
      · simp only [hexLowerByte, hexDigitVal, if_neg hd10]
        rw [if_neg (by omega : ¬(87 + d ≤ 57)), if_neg (by omega : ¬(87 + d ≤ 70))]
        omega]
    exact ih (acc * 16 + d) (fun x hx => h x (List.mem_cons_of_mem d hx))

lemma hexValOf_hexStr (n : Nat) : hexValOf (hexStr n) = n := by
  simp only [hexValOf, hexStr]
  rw [foldl_hex_map_lower _ 0 (hexRepr_props n).2.1]
  have := (hexRepr_props n).2.2.1 0
  simpa using this

lemma hexStr_length_le (n : Nat) (h : n < 65536) : (hexStr n).length ≤ 4 := by
  simp only [hexStr, List.length_map]
  exact (hexRepr_props n).2.2.2 4 (by norm_num) (by norm_num; omega)

lemma parseHexGroup_hexStr (w : Nat) (hw : w < 65536) :
    NetworkAddress.parseHexGroup (hexStr w) = some w := by
  have hne : (hexStr w).isEmpty = false := by
    cases h : hexStr w
    · exact absurd h (hexStr_ne_nil w)
    · rfl
  have hlen : ¬(4 < (hexStr w).length) := by
    have := hexStr_length_le w hw
    omega
  have hall : (hexStr w).all isHexDigitByte = true := List.all_eq_true.2 (hexStr_all_hex w)
  simp [NetworkAddress.parseHexGroup, hne, hlen, hall, hexValOf_hexStr]

lemma splitSep_ne_nil (c : Nat) (s : List Nat) : splitSep c s ≠ [] := by
  cases s with
  | nil => simp [splitSep]
  | cons b t =>
    simp only [splitSep]
    cases e : splitSep c t with
    | nil => simp
    | cons g gs => by_cases hbc : b = c <;> simp [hbc]

/-- A string without the separator splits into itself as single group. -/
lemma splitSep_no_sep (c : Nat) (g : List Nat) (h : c ∉ g) : splitSep c g = [g] := by
  induction g with
  | nil => rfl
  | cons b t ih =>
    have hbc : b ≠ c := fun hh => h (hh ▸ List.mem_cons_self b t)
    have ht := ih (fun hh => h (List.mem_cons_of_mem b hh))
    simp only [splitSep, ht, if_neg hbc]

lemma splitSep_sep_cons (c : Nat) (t : List Nat) :
    splitSep c (c :: t) = [] :: splitSep c t := by
  simp only [splitSep]
  cases e : splitSep c t with
  | nil => exact absurd e (splitSep_ne_nil c t)
  | cons g gs => simp

/-- Prepending a non-separator byte extends the first group. -/
lemma splitSep_cons_ne (c b : Nat) (t : List Nat) (hbc : b ≠ c) :
    splitSep c (b :: t) = (b :: (splitSep c t).headD []) :: (splitSep c t).tail := by
  simp only [splitSep]
  cases e : splitSep c t with
  | nil => exact absurd e (splitSep_ne_nil c t)
  | cons g gs => simp [hbc]

/-- Splitting a separator-free group followed by a separator peels off the
group. -/
lemma splitSep_append_sep (c : Nat) (g t : List Nat) (h : c ∉ g) :
    splitSep c (g ++ c :: t) = g :: splitSep c t := by
  induction g with
  | nil => simpa using splitSep_sep_cons c t
  | cons b g' ih =>
    have hbc : b ≠ c := fun hh => h (hh ▸ List.mem_cons_self b g')
    have ht := ih (fun hh => h (List.mem_cons_of_mem b hh))
    rw [List.cons_append, splitSep_cons_ne c b _ hbc, ht]
    simp

/-- Splitting the join of separator-free groups recovers the groups. -/
lemma splitSep_joinSep (c : Nat) : ∀ gs, gs ≠ [] → (∀ g ∈ gs, c ∉ g) →
    splitSep c (joinSep c gs) = gs := by
  intro gs
  induction gs with
  | nil => intro h _; exact absurd rfl h
  | cons g gtl ih =>
    intro _ hfree
    cases gtl with
    | nil => exact splitSep_no_sep c g (hfree g (List.mem_cons_self g []))
    | cons g2 grest =>
      have hj : joinSep c (g :: g2 :: grest) = g ++ c :: joinSep c (g2 :: grest) := rfl
      rw [hj, splitSep_append_sep c g _ (hfree g (List.mem_cons_self g _))]
      rw [ih (by simp) (fun x hx => hfree x (List.mem_cons_of_mem g hx))]

/-- Splitting the join of separator-free groups followed by a separator
and a tail yields the groups followed by the split of the tail. -/
lemma splitSep_joinSep_append (c : Nat) : ∀ A t, A ≠ [] → (∀ g ∈ A, c ∉ g) →
    splitSep c (joinSep c A ++ c :: t) = A ++ splitSep c t := by
  intro A
  induction A with
  | nil => intro t h _; exact absurd rfl h
  | cons g gtl ih =>
    intro t _ hfree
    cases gtl with
    | nil =>
      have hj : joinSep c [g] = g := rfl
      rw [hj, splitSep_append_sep c g t (hfree g (List.mem_cons_self g []))]
      rfl
    | cons g2 grest =>
      have hj : joinSep c (g :: g2 :: grest) = g ++ c :: joinSep c (g2 :: grest) := rfl
      rw [hj, List.append_assoc, List.cons_append]
      rw [splitSep_append_sep c g _ (hfree g (List.mem_cons_self g _))]
      rw [ih t (by simp) (fun x hx => hfree x (List.mem_cons_of_mem g hx))]
      rfl

/-- Membership in a join is membership in a group or the separator. -/
lemma mem_joinSep (c : Nat) : ∀ gs b, b ∈ joinSep c gs → b = c ∨ ∃ g ∈ gs, b ∈ g := by
  intro gs
  induction gs with
  | nil => intro b hb; exact absurd hb (by simp [joinSep])
  | cons g gtl ih =>
    intro b hb
    cases gtl with
    | nil => exact Or.inr ⟨g, List.mem_cons_self g [], hb⟩
    | cons g2 grest =>
      have hj : joinSep c (g :: g2 :: grest) = g ++ c :: joinSep c (g2 :: grest) := rfl
      rw [hj] at hb
      rcases List.mem_append.1 hb with hb | hb
      · exact Or.inr ⟨g, List.mem_cons_self g _, hb⟩
      · rcases List.mem_cons.1 hb with hb | hb
        · exact Or.inl hb
        · rcases ih b hb with hb | ⟨g', hg', hb⟩
          · exact Or.inl hb
          · exact Or.inr ⟨g', List.mem_cons_of_mem g hg', hb⟩

lemma count_joinSep (c : Nat) : ∀ gs, gs ≠ [] → (∀ g ∈ gs, c ∉ g) →
    List.count c (joinSep c gs) = gs.length - 1 := by
  intro gs
  induction gs with
  | nil => intro h _; exact absurd rfl h
  | cons g gtl ih =>
    intro _ hfree
    cases gtl with
    | nil =>
      have : List.count c g = 0 := List.count_eq_zero.2 (hfree g (List.mem_cons_self g []))
      simpa [joinSep] using this
    | cons g2 grest =>
      have hj : joinSep c (g :: g2 :: grest) = g ++ c :: joinSep c (g2 :: grest) := rfl
      rw [hj, List.count_append, List.count_cons]
      rw [List.count_eq_zero.2 (hfree g (List.mem_cons_self g _))]
      rw [ih (by simp) (fun x hx => hfree x (List.mem_cons_of_mem g hx))]
      simp only [List.length_cons, beq_self_eq_true, if_true]
      omega

/-- Generic `mapOpt` over a mapped list when every element round-trips. -/
lemma mapOpt_map (f : List Nat → Option Nat) (g : Nat → List Nat) :
    ∀ l : List Nat, (∀ x ∈ l, f (g x) = some x) → mapOpt f (l.map g) = some l := by
  intro l
  induction l with
  | nil => intro _; rfl
  | cons x xs ih =>
    intro h
    simp only [List.map_cons, mapOpt, h x (List.mem_cons_self x xs),
      ih (fun y hy => h y (List.mem_cons_of_mem x hy))]

lemma formatIPv4_mem (bytes : List Nat) :
    ∀ b ∈ NetworkAddress.formatIPv4 bytes, isDigitByte b = true ∨ b = 46 := by
  intro b hb
  rcases mem_joinSep 46 (bytes.map decStr) b hb with hb | ⟨g, hg, hb⟩
  · exact Or.inr hb
  · simp only [List.mem_map] at hg
    obtain ⟨x, _, rfl⟩ := hg
    exact Or.inl (decStr_all_digits x b hb)

/-- The dotted-quad text of four byte values parses back to the bytes. -/
lemma parseIPv4_formatIPv4 (b0 b1 b2 b3 : Nat)
    (h0 : b0 < 256) (h1 : b1 < 256) (h2 : b2 < 256) (h3 : b3 < 256) :
    NetworkAddress.parseIPv4 (NetworkAddress.formatIPv4 [b0, b1, b2, b3]) =
      some [b0, b1, b2, b3] := by
  have hfree : ∀ g ∈ ([b0, b1, b2, b3].map decStr), 46 ∉ g := by
    intro g hg hmem
    simp only [List.mem_map] at hg
    obtain ⟨x, _, rfl⟩ := hg
    have := decStr_all_digits x 46 hmem
    simp [isDigitByte] at this
  have hsplit : splitSep 46 (NetworkAddress.formatIPv4 [b0, b1, b2, b3]) =
      [b0, b1, b2, b3].map decStr :=
    splitSep_joinSep 46 _ (by simp) hfree
  simp only [NetworkAddress.parseIPv4, hsplit, List.length_map,
    List.length_cons, List.length_nil]
  simp only [if_true]
  exact mapOpt_map NetworkAddress.decOctet decStr _ (by
    intro x hx
    have : x ≤ 255 := by
      simp only [List.mem_cons, List.mem_singleton] at hx
      rcases hx with rfl | rfl | rfl | rfl | hx
      · omega
      · omega
      · omega
      · omega
      · exact absurd hx (by simp)
    exact decOctet_decStr x this)

lemma takeWhile_length_le (p : Nat → Bool) (l : List Nat) :
    (l.takeWhile p).length ≤ l.length := by
  induction l with
  | nil => simp
  | cons b t ih =>
    rw [List.takeWhile_cons]
    cases p b
    · simp
    · simpa using ih

lemma take_takeWhile_length (p : Nat → Bool) (l : List Nat) :
    l.take (l.takeWhile p).length = l.takeWhile p := by
  induction l with
  | nil => rfl
  | cons b t ih =>
    rw [List.takeWhile_cons]
    cases p b
    · simp
    · simpa using ih

namespace NetworkAddress

/-- Whatever run `bestRun` selects is a run of at least two zero words. -/
lemma bestRun_spec (ws : List Nat) (b l : Nat) (h : bestRun ws = some (b, l)) :
    2 ≤ l ∧ l = zeroRunLen ws b := by
  have key : ∀ o : Option (Nat × Nat),
      (List.foldl
        (fun best i =>
          let zl := zeroRunLen ws i
          match best with
          | none => if 2 ≤ zl then some (i, zl) else none
          | some (bi, bl) => if bl < zl then some (i, zl) else some (bi, bl))
        none (List.range ws.length)) = o →
      ∀ bb ll, o = some (bb, ll) → 2 ≤ ll ∧ ll = zeroRunLen ws bb := by
    intro o ho
    subst ho
    apply List.foldlRecOn (motive := fun o =>
      ∀ bb ll, o = some (bb, ll) → 2 ≤ ll ∧ ll = zeroRunLen ws bb)
    · intro bb ll hq
      exact absurd hq (by simp)
    · intro acc hacc i _
      cases acc with
      | none =>
        intro bb ll heq
        dsimp only at heq
        by_cases h2 : 2 ≤ zeroRunLen ws i
        · rw [if_pos h2] at heq
          simp only [Option.some_inj, Prod.mk.injEq] at heq
          obtain ⟨hq1, hq2⟩ := heq
          subst hq1
          subst hq2
          exact ⟨h2, rfl⟩
        · rw [if_neg h2] at heq
          exact absurd heq (by simp)
      | some p =>
        obtain ⟨bi, bl⟩ := p
        intro bb ll heq
        dsimp only at heq
        by_cases hlt : bl < zeroRunLen ws i
        · rw [if_pos hlt] at heq
          simp only [Option.some_inj, Prod.mk.injEq] at heq
          obtain ⟨hq1, hq2⟩ := heq
          subst hq1
          subst hq2
          have := hacc bi bl rfl
          exact ⟨by omega, rfl⟩
        · rw [if_neg hlt] at heq
          exact hacc bb ll heq
  exact key (bestRun ws) rfl b l h

/-- The selected zero run really consists of zero words and stays inside
the list. -/
lemma zeroRun_facts (ws : List Nat) (b l : Nat) (h2 : 2 ≤ l)
    (hzrl : l = zeroRunLen ws b) :
    b + l ≤ ws.length ∧ (ws.drop b).take l = List.replicate l 0 := by
  have hlen : l ≤ ws.length - b := by
    rw [hzrl, zeroRunLen]
    have := takeWhile_length_le (fun x => x == 0) (ws.drop b)
    rw [List.length_drop] at this
    exact this
  have hblt : b < ws.length := by
    by_contra hc
    omega
  refine ⟨by omega, ?_⟩
  rw [hzrl, zeroRunLen, take_takeWhile_length]
  apply List.eq_replicate.2
  refine ⟨rfl, ?_⟩
  intro x hx
  have := List.mem_takeWhile_imp hx
  simpa using this

lemma formatIPv6core_mem (ws : List Nat) :
    ∀ b ∈ formatIPv6core ws, isHexDigitByte b = true ∨ b = 58 := by
  intro b hb
  simp only [formatIPv6core] at hb
  cases e : bestRun ws with
  | none =>
    rw [e] at hb
    rcases mem_joinSep 58 _ b hb with hb | ⟨g, hg, hb⟩
    · exact Or.inr hb
    · simp only [List.mem_map] at hg
      obtain ⟨x, _, rfl⟩ := hg
      exact Or.inl (hexStr_all_hex x b hb)
  | some p =>
    obtain ⟨bb, ll⟩ := p
    rw [e] at hb
    rcases List.mem_append.1 hb with hb | hb
    · rcases mem_joinSep 58 _ b hb with hb | ⟨g, hg, hb⟩
      · exact Or.inr hb
      · simp only [List.mem_map] at hg
        obtain ⟨x, _, rfl⟩ := hg
        exact Or.inl (hexStr_all_hex x b hb)
    · rcases List.mem_cons.1 hb with hb | hb
      · exact Or.inr hb
      · rcases List.mem_cons.1 hb with hb | hb
        · exact Or.inr hb
        · rcases mem_joinSep 58 _ b hb with hb | ⟨g, hg, hb⟩
          · exact Or.inr hb
          · simp only [List.mem_map] at hg
            obtain ⟨x, _, rfl⟩ := hg
            exact Or.inl (hexStr_all_hex x b hb)

end NetworkAddress

namespace NetworkAddress

lemma gapSplitAux_walk : ∀ (A left rest : List (List Nat)), (∀ g ∈ A, g ≠ []) →
    gapSplitAux left (A ++ [] :: rest) = gapSplitAux (left ++ A) ([] :: rest) := by
  intro A
  induction A with
  | nil => intro left rest _; simp
  | cons g A' ih =>
    intro left rest hne
    have hg := hne g (List.mem_cons_self g A')
    cases g with
    | nil => exact absurd rfl hg
    | cons x g0 =>
      have hstep : gapSplitAux left ((x :: g0) :: (A' ++ [] :: rest)) =
          gapSplitAux (left ++ [x :: g0]) (A' ++ [] :: rest) := rfl
      rw [List.cons_append, hstep,
        ih (left ++ [x :: g0]) rest (fun y hy => hne y (List.mem_cons_of_mem _ hy)),
        List.append_assoc, List.singleton_append]

lemma gapSplitAux_gap (A rest : List (List Nat)) (hA : A ≠ []) :
    gapSplitAux A ([] :: rest) =
      if rest = [[]] then some (A, [])
      else if !rest.isEmpty && rest.all (fun g => !g.isEmpty) then some (A, rest)
      else none := by
  have hAe : A.isEmpty = false := by
    cases A
    · exact absurd rfl hA
    · rfl
  show (if A.isEmpty then none
        else if rest = [[]] then some (A, [])
        else if !rest.isEmpty && rest.all (fun g => !g.isEmpty) then some (A, rest)
        else none) = _
  rw [hAe]
  simp

lemma gapSplit_top (A rest : List (List Nat)) (hA : A ≠ [])
    (hne : ∀ g ∈ A, g ≠ []) :
    gapSplit (A ++ [] :: rest) = gapSplitAux A ([] :: rest) := by
  cases A with
  | nil => exact absurd rfl hA
  | cons g A' =>
    have hg := hne g (List.mem_cons_self g A')
    cases g with
    | nil => exact absurd rfl hg
    | cons x g0 =>
      have h1 : gapSplit ((x :: g0) :: (A' ++ [] :: rest)) =
          gapSplitAux [] ((x :: g0) :: (A' ++ [] :: rest)) := rfl
      have h2 : gapSplitAux [] ((x :: g0) :: (A' ++ [] :: rest)) =
          gapSplitAux [x :: g0] (A' ++ [] :: rest) := rfl
      rw [List.cons_append, h1, h2,
        gapSplitAux_walk A' [x :: g0] rest (fun y hy => hne y (List.mem_cons_of_mem _ hy)),
        List.singleton_append]

end NetworkAddress

lemma all_ne_nil_false (gs : List (List Nat)) (h : [] ∈ gs) :
    gs.all (fun g => !g.isEmpty) = false := by
  cases hq : gs.all (fun g => !g.isEmpty)
  · rfl
  · have := List.all_eq_true.1 hq [] h
    simp at this

namespace NetworkAddress

/-- Evaluation of `parseIPv6` through the gap branch once the group split,
the gap decomposition and the per-group parses are known. -/
lemma parseIPv6_eval (s : List Nat) (gs A B : List (List Nat)) (va vb : List Nat)
    (hgs : splitSep 58 s = gs)
    (hmem : [] ∈ gs)
    (hgap : gapSplit gs = some (A, B))
    (h7 : A.length + B.length ≤ 7)
    (hva : mapOpt parseHexGroup A = some va)
    (hvb : mapOpt parseHexGroup B = some vb) :
    parseIPv6 s = some (va ++ List.replicate (8 - (va.length + vb.length)) 0 ++ vb) := by
  simp only [parseIPv6, hgs]
  rw [all_ne_nil_false gs hmem]
  simp only [Bool.false_eq_true, if_false]
  rw [hgap]
  simp only [hva, hvb]
  rw [if_pos h7]

/-- The canonical compressed hextet text of eight 16-bit words parses back
to the words. -/
lemma parseIPv6_formatIPv6core (ws : List Nat) (hlen : ws.length = 8)
    (hw : ∀ w ∈ ws, w < 65536) :
    parseIPv6 (formatIPv6core ws) = some ws := by
  have hwsne : ws ≠ [] := by
    intro h
    rw [h] at hlen
    simp at hlen
  have hfree : ∀ l : List Nat, ∀ g ∈ l.map hexStr, (58 : Nat) ∉ g := by
    intro l g hg hmem
    simp only [List.mem_map] at hg
    obtain ⟨x, _, rfl⟩ := hg
    have := hexStr_all_hex x 58 hmem
    exact absurd this (by decide)
  have hgne : ∀ l : List Nat, ∀ g ∈ l.map hexStr, g ≠ [] := by
    intro l g hg
    simp only [List.mem_map] at hg
    obtain ⟨x, _, rfl⟩ := hg
    exact hexStr_ne_nil x
  have hparse : ∀ l : List Nat, (∀ w ∈ l, w < 65536) →
      mapOpt parseHexGroup (l.map hexStr) = some l := by
    intro l hl
    exact mapOpt_map parseHexGroup hexStr l (fun x hx => parseHexGroup_hexStr x (hl x hx))
  cases e : bestRun ws with
  | none =>
    have hjoin : formatIPv6core ws = joinSep 58 (ws.map hexStr) := by
      simp [formatIPv6core, e]
    have hmapne : ws.map hexStr ≠ [] := by
      simpa using hwsne
    have hsplit : splitSep 58 (joinSep 58 (ws.map hexStr)) = ws.map hexStr :=
      splitSep_joinSep 58 _ hmapne (hfree ws)
    have hall : (ws.map hexStr).all (fun g => !g.isEmpty) = true := by
      apply List.all_eq_true.2
      intro g hg
      have := hgne ws g hg
      cases g
      · exact absurd rfl this
      · rfl
    rw [hjoin]
    simp only [parseIPv6, hsplit, hall, if_true, List.length_map, hlen]
    exact hparse ws hw
  | some p =>
    obtain ⟨b, l⟩ := p
    obtain ⟨h2l, hzrl⟩ := bestRun_spec ws b l e
    obtain ⟨hble, hmid⟩ := zeroRun_facts ws b l h2l hzrl
    rw [hlen] at hble
    have hdecomp : ws = ws.take b ++ List.replicate l 0 ++ ws.drop (b + l) := by
      conv_lhs => rw [← List.take_append_drop b ws]
      rw [List.append_assoc]
      congr 1
      conv_lhs => rw [← List.take_append_drop l (ws.drop b)]
      rw [hmid, List.drop_drop]
    have hlenA : (ws.take b).length = b := by
      rw [List.length_take, hlen]
      omega
    have hlenB : (ws.drop (b + l)).length = 8 - (b + l) := by
      rw [List.length_drop, hlen]
    have hwA : ∀ w ∈ ws.take b, w < 65536 := fun w hwk => hw w (List.mem_of_mem_take hwk)
    have hwB : ∀ w ∈ ws.drop (b + l), w < 65536 :=
      fun w hwk => hw w (List.mem_of_mem_drop hwk)
    have hjoin : formatIPv6core ws =
        joinSep 58 ((ws.take b).map hexStr) ++
          58 :: 58 :: joinSep 58 ((ws.drop (b + l)).map hexStr) := by
      simp [formatIPv6core, e]
    have hBnn : ∀ g ∈ (ws.drop (b + l)).map hexStr, g ≠ [] := hgne _
    have hAnn : ∀ g ∈ (ws.take b).map hexStr, g ≠ [] := hgne _
    have hBne11 : (ws.drop (b + l)).map hexStr ≠ [[]] := by
      intro hq
      have : ([] : List Nat) ∈ (ws.drop (b + l)).map hexStr := by
        rw [hq]
        exact List.mem_singleton.2 rfl
      exact hBnn [] this rfl
    have hcnt : 8 - ((ws.take b).length + (ws.drop (b + l)).length) = l := by
      rw [hlenA, hlenB]
      omega
    rw [hjoin]
    by_cases hb0 : b = 0
    · subst hb0
      have hA0 : ws.take 0 = [] := rfl
      by_cases hbl : 0 + l = 8
      · -- the whole address is zero: the text is `::`
        have hB0 : ws.drop (0 + l) = [] := List.drop_eq_nil_of_le (by omega)
        rw [hA0, hB0]
        simp only [List.map_nil, joinSep, List.nil_append]
        have hgs : splitSep 58 [58, 58] = [[], [], []] := by decide
        have hva : mapOpt parseHexGroup [] = some (ws.take 0) := rfl
        have hvb : mapOpt parseHexGroup [] = some (ws.drop (0 + l)) := by rw [hB0]; rfl
        rw [parseIPv6_eval [58, 58] [[], [], []] [] [] (ws.take 0) (ws.drop (0 + l))
          hgs (by simp) (by decide) (by simp) hva hvb]
        rw [hcnt, ← hdecomp]
      · -- leading `::`
        have hBlist : ws.drop (0 + l) ≠ [] := by
          intro hq
          have := congrArg List.length hq
          rw [hlenB] at this
          simp at this
          omega
        have hBmapne : (ws.drop (0 + l)).map hexStr ≠ [] := by
          simpa using hBlist
        rw [hA0]
        simp only [List.map_nil, joinSep, List.nil_append]
        have hgs : splitSep 58 (58 :: 58 :: joinSep 58 ((ws.drop (0 + l)).map hexStr)) =
            [] :: [] :: (ws.drop (0 + l)).map hexStr := by
          rw [splitSep_sep_cons, splitSep_sep_cons,
            splitSep_joinSep 58 _ hBmapne (hfree _)]
        have hcondB : (!((ws.drop (0 + l)).map hexStr).isEmpty &&
            ((ws.drop (0 + l)).map hexStr).all (fun g => !g.isEmpty)) = true := by
          rw [Bool.and_eq_true]
          constructor
          · cases hq : (ws.drop (0 + l)).map hexStr
            · exact absurd hq hBmapne
            · rfl
          · apply List.all_eq_true.2
            intro g hg
            have := hBnn g hg
            cases g
            · exact absurd rfl this
            · rfl
        have hgap : gapSplit ([] :: [] :: (ws.drop (0 + l)).map hexStr) =
            some ([], (ws.drop (0 + l)).map hexStr) := by
          show (if (ws.drop (0 + l)).map hexStr = [[]]
                then some (([] : List (List Nat)), ([] : List (List Nat)))
                else if !((ws.drop (0 + l)).map hexStr).isEmpty &&
                    ((ws.drop (0 + l)).map hexStr).all (fun g => !g.isEmpty)
                  then some ([], (ws.drop (0 + l)).map hexStr)
                  else none) = _
          rw [if_neg hBne11, if_pos hcondB]
        have hva : mapOpt parseHexGroup [] = some (ws.take 0) := rfl
        rw [parseIPv6_eval _ _ [] ((ws.drop (0 + l)).map hexStr) (ws.take 0) (ws.drop (0 + l))
          hgs (by simp) hgap
          (by simp only [List.length_nil, List.length_map, hlenB]; omega)
          hva (hparse _ hwB)]
        rw [hcnt, ← hdecomp]
    · have hAlist : ws.take b ≠ [] := by
        intro hq
        have := congrArg List.length hq
        rw [hlenA] at this
        simp at this
        omega
      have hAmapne : (ws.take b).map hexStr ≠ [] := by
        simpa using hAlist
      by_cases hbl : b + l = 8
      · -- trailing `::`
        have hB0 : ws.drop (b + l) = [] := List.drop_eq_nil_of_le (by omega)
        rw [hB0]
        simp only [List.map_nil, joinSep]
        have hgs : splitSep 58
            (joinSep 58 ((ws.take b).map hexStr) ++ 58 :: 58 :: []) =
            (ws.take b).map hexStr ++ [[], []] := by
          rw [show (58 :: 58 :: [] : List Nat) = 58 :: [58] from rfl]
          rw [splitSep_joinSep_append 58 _ [58] hAmapne (hfree _)]
          rfl
        have hgap : gapSplit ((ws.take b).map hexStr ++ [[], []]) =
            some ((ws.take b).map hexStr, []) := by
          rw [show ([[], []] : List (List Nat)) = [] :: [[]] from rfl]
          rw [gapSplit_top _ [[]] hAmapne hAnn]
          rw [gapSplitAux_gap _ [[]] hAmapne]
          rw [if_pos rfl]
        have hvb : mapOpt parseHexGroup [] = some (ws.drop (b + l)) := by rw [hB0]; rfl
        rw [parseIPv6_eval _ _ ((ws.take b).map hexStr) [] (ws.take b) (ws.drop (b + l))
          hgs (by simp) hgap
          (by simp only [List.length_map, List.length_nil, hlenA]; omega)
          (hparse _ hwA) hvb]
        rw [hcnt, ← hdecomp]
      · -- interior `::`
        have hBlist : ws.drop (b + l) ≠ [] := by
          intro hq
          have := congrArg List.length hq
          rw [hlenB] at this
          simp at this
          omega
        have hBmapne : (ws.drop (b + l)).map hexStr ≠ [] := by
          simpa using hBlist
        have hgs : splitSep 58
            (joinSep 58 ((ws.take b).map hexStr) ++
              58 :: 58 :: joinSep 58 ((ws.drop (b + l)).map hexStr)) =
            (ws.take b).map hexStr ++ [] :: (ws.drop (b + l)).map hexStr := by
          rw [splitSep_joinSep_append 58 _ _ hAmapne (hfree _)]
          rw [splitSep_sep_cons, splitSep_joinSep 58 _ hBmapne (hfree _)]
        have hcondB : (!((ws.drop (b + l)).map hexStr).isEmpty &&
            ((ws.drop (b + l)).map hexStr).all (fun g => !g.isEmpty)) = true := by
          rw [Bool.and_eq_true]
          constructor
          · cases hq : (ws.drop (b + l)).map hexStr
            · exact absurd hq hBmapne
            · rfl
          · apply List.all_eq_true.2
            intro g hg
            have := hBnn g hg
            cases g
            · exact absurd rfl this
            · rfl
        have hgap : gapSplit ((ws.take b).map hexStr ++ [] :: (ws.drop (b + l)).map hexStr) =
            some ((ws.take b).map hexStr, (ws.drop (b + l)).map hexStr) := by
          rw [gapSplit_top _ _ hAmapne hAnn]
          rw [gapSplitAux_gap _ _ hAmapne]
          rw [if_neg hBne11, if_pos hcondB]
        rw [parseIPv6_eval _ _ ((ws.take b).map hexStr) ((ws.drop (b + l)).map hexStr)
          (ws.take b) (ws.drop (b + l))
          hgs (by simp) hgap
          (by simp only [List.length_map, hlenA, hlenB]; omega)
          (hparse _ hwA) (hparse _ hwB)]
        rw [hcnt, ← hdecomp]

end NetworkAddress
lemma rlast_none_of_not_mem (c : Nat) (s : List Nat) (h : c ∉ s) : rlast c s = none := by
  cases e : rlast c s with
  | none => rfl
  | some i => exact absurd (mem_of_rlast_some c s i e) h

lemma rlast_append_cons (c : Nat) (A B : List Nat) (h : c ∉ B) :
    rlast c (A ++ c :: B) = some A.length := by
  induction A with
  | nil =>
    simp [rlast, rlast_none_of_not_mem c B h]
  | cons a A' ih =>
    simp only [List.cons_append, rlast, List.append_eq, ih, List.length_cons]

lemma firstIdx_append_cons (c : Nat) (A B : List Nat) (h : c ∉ A) :
    firstIdx c (A ++ c :: B) = some A.length := by
  induction A with
  | nil => simp [firstIdx]
  | cons a A' ih =>
    have hac : a ≠ c := fun hh => h (hh ▸ List.mem_cons_self a A')
    simp only [List.cons_append, firstIdx, if_neg hac, List.append_eq,
      ih (fun hh => h (List.mem_cons_of_mem a hh)), Option.map_some', List.length_cons]

lemma headD_ne_91 (h : List Nat) (P : ∀ b ∈ h, b ≠ 91) : h.headD 0 ≠ 91 := by
  cases h with
  | nil => simp
  | cons b t => exact P b (List.mem_cons_self b t)

namespace NetworkAddress

/-- A string with at least two `:` bytes and no `]` byte is not split. -/
lemma splitHostPort_no_split (s : List Nat) (hcount : 2 ≤ List.count 58 s)
    (hb : (93 : Nat) ∉ s) : splitHostPort s = (s, []) := by
  have hmem : (58 : Nat) ∈ s := by
    by_contra hc
    rw [List.count_eq_zero.2 hc] at hcount
    omega
  obtain ⟨lastloc, hlast⟩ := Option.isSome_iff_exists.1 (rlast_isSome_of_mem 58 s hmem)
  have hfi : firstIdx 58 s ≠ some lastloc := by
    intro hq
    have := (firstIdx_eq_rlast_iff_count_one 58 s lastloc hlast).1 hq
    omega
  have hfib : (firstIdx 58 s != some lastloc) = true := bne_iff_ne.2 hfi
  have hbr : rlast 93 s = none := rlast_none_of_not_mem 93 s hb
  simp only [splitHostPort, hlast, hfib, hbr, Bool.true_and, if_true]

/-- Splitting at the final `:` of `A ++ : ++ B` when either it is the
first `:` as well, or a `]` occurs in `A`. -/
lemma splitHostPort_split (A B : List Nat) (h58B : (58 : Nat) ∉ B)
    (hcond : firstIdx 58 (A ++ 58 :: B) = some A.length ∨
             (∃ j, rlast 93 (A ++ 58 :: B) = some j ∧ j ≤ A.length)) :
    splitHostPort (A ++ 58 :: B) = (A, B) := by
  have hlast : rlast 58 (A ++ 58 :: B) = some A.length := rlast_append_cons 58 A B h58B
  have htake : (A ++ 58 :: B).take A.length = A := List.take_left A (58 :: B)
  have hdrop : (A ++ 58 :: B).drop (A.length + 1) = B := by
    rw [List.drop_append 1]
    rfl
  have hns : ((firstIdx 58 (A ++ 58 :: B) != some A.length) &&
      (match rlast 93 (A ++ 58 :: B) with
       | none => true
       | some j => decide (A.length < j))) = false := by
    rcases hcond with hq | ⟨j, hj, hle⟩
    · rw [Bool.and_eq_false_iff]
      left
      simp [hq]
    · rw [Bool.and_eq_false_iff]
      right
      rw [hj]
      simp only [decide_eq_false_iff_not, not_lt]
      exact hle
  simp only [splitHostPort, hlast, hns, Bool.false_eq_true, if_false, htake, hdrop]

lemma stripBrackets_id (h p : List Nat) (hh : h.headD 0 ≠ 91) :
    stripBrackets (h, p) = (h, p) := by
  simp only [stripBrackets]
  rw [if_neg (fun hq => hh hq.1)]

lemma stripBrackets_strip (fmt p : List Nat) :
    stripBrackets ((91 :: fmt) ++ [93], p) = (fmt, p) := by
  have hhead : ((91 :: fmt) ++ [93]).headD 0 = 91 := rfl
  have hlast : ((91 :: fmt) ++ [93]).getLastD 0 = 93 := List.getLastD_concat 0 93 (91 :: fmt)
  have hlen : ((91 :: fmt) ++ [93]).length = fmt.length + 2 := by
    simp
  simp only [stripBrackets]
  rw [if_pos ⟨hhead, hlast⟩, hlen]
  have hdrop : ((91 :: fmt) ++ [93]).drop 1 = fmt ++ [93] := rfl
  rw [hdrop]
  rw [show fmt.length + 2 - 2 = fmt.length from by omega]
  rw [List.take_left fmt [93]]

lemma formatIPv4_not_58 (bytes : List Nat) : (58 : Nat) ∉ formatIPv4 bytes := by
  intro hm
  rcases formatIPv4_mem bytes 58 hm with hq | hq
  · exact absurd hq (by decide)
  · omega

lemma formatIPv4_not_93 (bytes : List Nat) : (93 : Nat) ∉ formatIPv4 bytes := by
  intro hm
  rcases formatIPv4_mem bytes 93 hm with hq | hq
  · exact absurd hq (by decide)
  · omega

lemma formatIPv4_head_ne_91 (bytes : List Nat) : (formatIPv4 bytes).headD 0 ≠ 91 := by
  apply headD_ne_91
  intro b hb
  rcases formatIPv4_mem bytes b hb with hq | hq
  · simp only [isDigitByte, Bool.and_eq_true, decide_eq_true_eq] at hq
    omega
  · omega

lemma formatIPv6core_not_93 (ws : List Nat) : (93 : Nat) ∉ formatIPv6core ws := by
  intro hm
  rcases formatIPv6core_mem ws 93 hm with hq | hq
  · exact absurd hq (by decide)
  · omega

lemma formatIPv6core_not_46 (ws : List Nat) : (46 : Nat) ∉ formatIPv6core ws := by
  intro hm
  rcases formatIPv6core_mem ws 46 hm with hq | hq
  · exact absurd hq (by decide)
  · omega

lemma formatIPv6core_head_ne_91 (ws : List Nat) : (formatIPv6core ws).headD 0 ≠ 91 := by
  apply headD_ne_91
  intro b hb
  rcases formatIPv6core_mem ws b hb with hq | hq
  · simp only [isHexDigitByte, Bool.or_eq_true, Bool.and_eq_true, decide_eq_true_eq] at hq
    omega
  · omega

lemma decStr_not_58 (n : Nat) : (58 : Nat) ∉ decStr n := by
  intro hm
  have := decStr_all_digits n 58 hm
  exact absurd this (by decide)

lemma decStr_not_93 (n : Nat) : (93 : Nat) ∉ decStr n := by
  intro hm
  have := decStr_all_digits n 93 hm
  exact absurd this (by decide)

lemma count58_formatIPv6core (ws : List Nat) (hlen : ws.length = 8) :
    2 ≤ List.count 58 (formatIPv6core ws) := by
  have hfree : ∀ g ∈ ws.map hexStr, (58 : Nat) ∉ g := by
    intro g hg hmem
    simp only [List.mem_map] at hg
    obtain ⟨x, _, rfl⟩ := hg
    have := hexStr_all_hex x 58 hmem
    exact absurd this (by decide)
  simp only [formatIPv6core]
  cases e : bestRun ws with
  | none =>
    rw [count_joinSep 58 (ws.map hexStr) (by
      intro hq
      have := congrArg List.length hq
      rw [List.length_map, hlen] at this
      simp at this) hfree]
    rw [List.length_map, hlen]
    omega
  | some p =>
    obtain ⟨b, l⟩ := p
    rw [List.count_append, List.count_cons, List.count_cons]
    simp only [beq_self_eq_true, if_true]
    omega

lemma parseIPv4_formatIPv6core (ws : List Nat) : parseIPv4 (formatIPv6core ws) = none := by
  have hsplit : splitSep 46 (formatIPv6core ws) = [formatIPv6core ws] :=
    splitSep_no_sep 46 _ (formatIPv6core_not_46 ws)
  simp [parseIPv4, hsplit]

/-- Evaluation of `fromIPString` once split, port and IPv4-host parse are
known. -/
lemma fromIPString_eval_v4 (s host ptxt : List Nat) (p dp : Nat) (pp : Bool)
    (bytes : List Nat)
    (hsplit : stripBrackets (splitHostPort s) = (host, ptxt))
    (hport : parsePortNum (if pp && !ptxt.isEmpty then ptxt else decStr dp) = some p)
    (hhost : parseIPv4 host = some bytes) :
    fromIPString s dp pp = some (.ipv4 bytes p) := by
  simp only [fromIPString, hsplit, hport, hhost]

/-- Evaluation of `fromIPString` once split, port and IPv6-host parse are
known. -/
lemma fromIPString_eval_v6 (s host ptxt : List Nat) (p dp : Nat) (pp : Bool)
    (words : List Nat)
    (hsplit : stripBrackets (splitHostPort s) = (host, ptxt))
    (hport : parsePortNum (if pp && !ptxt.isEmpty then ptxt else decStr dp) = some p)
    (hv4 : parseIPv4 host = none)
    (hv6 : parseIPv6 host = some words) :
    fromIPString s dp pp = some (.ipv6 (wordsToBytes words) p 0) := by
  simp only [fromIPString, hsplit, hport, hv4, hv6]

end NetworkAddress

lemma bytesToWords_facts : ∀ (n : Nat) (bytes : List Nat), bytes.length = 2 * n →
    (∀ b ∈ bytes, b < 256) →
    (bytesToWords bytes).length = n ∧ (∀ w ∈ bytesToWords bytes, w < 65536) ∧
    wordsToBytes (bytesToWords bytes) = bytes := by
  intro n
  induction n with
  | zero =>
    intro bytes hlen _
    have : bytes = [] := List.eq_nil_of_length_eq_zero (by omega)
    subst this
    exact ⟨rfl, by simp [bytesToWords], rfl⟩
  | succ m ih =>
    intro bytes hlen hb
    cases bytes with
    | nil => simp at hlen
    | cons b1 rest =>
      cases rest with
      | nil => simp at hlen; omega
      | cons b2 bs =>
        have hb1 := hb b1 (by simp)
        have hb2 := hb b2 (by simp)
        have hlbs : bs.length = 2 * m := by
          simp only [List.length_cons] at hlen
          omega
        obtain ⟨ihl, ihw, ihr⟩ := ih bs hlbs (fun x hx => hb x (by simp [hx]))
        refine ⟨?_, ?_, ?_⟩
        · simp only [bytesToWords, List.length_cons, ihl]
        · intro w hw
          simp only [bytesToWords, List.mem_cons] at hw
          rcases hw with rfl | hw
          · omega
          · exact ihw w hw
        · simp only [bytesToWords, wordsToBytes, ihr]
          congr 1
          · omega
          · congr 1
            omega
namespace NetworkAddress

lemma decStr_isEmpty_false (n : Nat) : (decStr n).isEmpty = false := by
  cases e : (decStr n).isEmpty with
  | false => rfl
  | true => exact absurd (List.isEmpty_iff.1 e) (decStr_ne_nil n)

lemma portText_default (dp : Nat) (hdp : dp ≤ 65535) :
    parsePortNum (if true && !(List.isEmpty ([] : List Nat)) then ([] : List Nat)
                  else decStr dp) = some dp := by
  simpa using parsePortNum_decStr dp hdp

lemma portText_explicit (p : Nat) (hp : p ≤ 65535) :
    parsePortNum (if true && !(decStr p).isEmpty then decStr p else decStr 0) = some p := by
  rw [decStr_isEmpty_false p]
  simpa using parsePortNum_decStr p hp

end NetworkAddress

/-- C2: for every IPv4 address (four stored octets and a port) and every
IPv6 address with zero scope id, `fromIPString` applied to the
`toString` text — with the default port 0 and port parsing enabled, as
in the claim's call — returns the original address, the `:port` suffix
(bracketed host for IPv6) appearing exactly when the port is nonzero. -/
theorem fromIPString_toString_roundtrip :
    (∀ b0 b1 b2 b3 p, b0 < 256 → b1 < 256 → b2 < 256 → b3 < 256 → p < 65536 →
       ∃ s, NetworkAddress.toString (NetworkAddress.ipv4 [b0, b1, b2, b3] p) = some s ∧
            NetworkAddress.fromIPString s 0 true =
              some (NetworkAddress.ipv4 [b0, b1, b2, b3] p)) ∧
    (∀ bytes p, bytes.length = 16 → (∀ b ∈ bytes, b < 256) → p < 65536 →
       ∃ s, NetworkAddress.toString (NetworkAddress.ipv6 bytes p 0) = some s ∧
            NetworkAddress.fromIPString s 0 true =
              some (NetworkAddress.ipv6 bytes p 0)) := by
  constructor
  · intro b0 b1 b2 b3 p h0 h1 h2 h3 hp
    have hpm : p % 65536 = p := Nat.mod_eq_of_lt hp
    have hv4 := parseIPv4_formatIPv4 b0 b1 b2 b3 h0 h1 h2 h3
    by_cases hp0 : p = 0
    · subst hp0
      refine ⟨NetworkAddress.formatIPv4 [b0, b1, b2, b3], by simp [NetworkAddress.toString], ?_⟩
      have hsp : NetworkAddress.splitHostPort (NetworkAddress.formatIPv4 [b0, b1, b2, b3]) =
          (NetworkAddress.formatIPv4 [b0, b1, b2, b3], []) := by
        simp only [NetworkAddress.splitHostPort,
          rlast_none_of_not_mem 58 _ (NetworkAddress.formatIPv4_not_58 _)]
      have hsplit : NetworkAddress.stripBrackets
          (NetworkAddress.splitHostPort (NetworkAddress.formatIPv4 [b0, b1, b2, b3])) =
          (NetworkAddress.formatIPv4 [b0, b1, b2, b3], []) := by
        rw [hsp]
        exact NetworkAddress.stripBrackets_id _ _ (NetworkAddress.formatIPv4_head_ne_91 _)
      exact NetworkAddress.fromIPString_eval_v4 _ _ _ 0 0 true _ hsplit
        (NetworkAddress.portText_default 0 (by omega)) hv4
    · refine ⟨NetworkAddress.formatIPv4 [b0, b1, b2, b3] ++ 58 :: decStr p, ?_, ?_⟩
      · simp only [NetworkAddress.toString, hpm]
        rw [if_neg hp0]
      · have hsp : NetworkAddress.splitHostPort
            (NetworkAddress.formatIPv4 [b0, b1, b2, b3] ++ 58 :: decStr p) =
            (NetworkAddress.formatIPv4 [b0, b1, b2, b3], decStr p) :=
          NetworkAddress.splitHostPort_split _ _ (NetworkAddress.decStr_not_58 p)
            (Or.inl (firstIdx_append_cons 58 _ _ (NetworkAddress.formatIPv4_not_58 _)))
        have hsplit : NetworkAddress.stripBrackets (NetworkAddress.splitHostPort
            (NetworkAddress.formatIPv4 [b0, b1, b2, b3] ++ 58 :: decStr p)) =
            (NetworkAddress.formatIPv4 [b0, b1, b2, b3], decStr p) := by
          rw [hsp]
          exact NetworkAddress.stripBrackets_id _ _ (NetworkAddress.formatIPv4_head_ne_91 _)
        exact NetworkAddress.fromIPString_eval_v4 _ _ _ p 0 true _ hsplit
          (NetworkAddress.portText_explicit p (by omega)) hv4
  · intro bytes p hlen hb hp
    have hpm : p % 65536 = p := Nat.mod_eq_of_lt hp
    obtain ⟨hwl, hww, hwr⟩ := bytesToWords_facts 8 bytes (by omega) hb
    have hv6 : NetworkAddress.parseIPv6 (NetworkAddress.formatIPv6core (bytesToWords bytes)) =
        some (bytesToWords bytes) :=
      NetworkAddress.parseIPv6_formatIPv6core _ hwl hww
    have hv4 : NetworkAddress.parseIPv4 (NetworkAddress.formatIPv6core (bytesToWords bytes)) =
        none := NetworkAddress.parseIPv4_formatIPv6core _
    by_cases hp0 : p = 0
    · subst hp0
      refine ⟨NetworkAddress.formatIPv6core (bytesToWords bytes),
        by simp [NetworkAddress.toString], ?_⟩
      have hsp : NetworkAddress.splitHostPort (NetworkAddress.formatIPv6core (bytesToWords bytes)) =
          (NetworkAddress.formatIPv6core (bytesToWords bytes), []) :=
        NetworkAddress.splitHostPort_no_split _
          (NetworkAddress.count58_formatIPv6core _ hwl) (NetworkAddress.formatIPv6core_not_93 _)
      have hsplit : NetworkAddress.stripBrackets (NetworkAddress.splitHostPort
          (NetworkAddress.formatIPv6core (bytesToWords bytes))) =
          (NetworkAddress.formatIPv6core (bytesToWords bytes), []) := by
        rw [hsp]
        exact NetworkAddress.stripBrackets_id _ _ (NetworkAddress.formatIPv6core_head_ne_91 _)
      have := NetworkAddress.fromIPString_eval_v6 _ _ _ 0 0 true _ hsplit
        (NetworkAddress.portText_default 0 (by omega)) hv4 hv6
      rw [this, hwr]
    · refine ⟨91 :: NetworkAddress.formatIPv6core (bytesToWords bytes) ++ 93 :: 58 :: decStr p,
        ?_, ?_⟩
      · simp only [NetworkAddress.toString, hpm]
        rw [if_neg hp0]
      · have h93 : (93 : Nat) ∉ 58 :: decStr p := by
          intro hm
          rcases List.mem_cons.1 hm with hq | hq
          · omega
          · exact NetworkAddress.decStr_not_93 p hq
        have hshape : 91 :: NetworkAddress.formatIPv6core (bytesToWords bytes) ++
            93 :: 58 :: decStr p =
            ((91 :: NetworkAddress.formatIPv6core (bytesToWords bytes)) ++ [93]) ++
            58 :: decStr p := by
          rw [List.append_assoc]
          rfl
        have hj : rlast 93 (((91 :: NetworkAddress.formatIPv6core (bytesToWords bytes)) ++ [93]) ++
            58 :: decStr p) =
            some ((NetworkAddress.formatIPv6core (bytesToWords bytes)).length + 1) := by
          rw [List.append_assoc]
          have := rlast_append_cons 93
            (91 :: NetworkAddress.formatIPv6core (bytesToWords bytes)) (58 :: decStr p) h93
          simpa using this
        have hsp : NetworkAddress.splitHostPort
            (91 :: NetworkAddress.formatIPv6core (bytesToWords bytes) ++ 93 :: 58 :: decStr p) =
            ((91 :: NetworkAddress.formatIPv6core (bytesToWords bytes)) ++ [93], decStr p) := by
          rw [hshape]
          refine NetworkAddress.splitHostPort_split _ _ (NetworkAddress.decStr_not_58 p)
            (Or.inr ⟨(NetworkAddress.formatIPv6core (bytesToWords bytes)).length + 1, hj, ?_⟩)
          simp
        have hsplit : NetworkAddress.stripBrackets (NetworkAddress.splitHostPort
            (91 :: NetworkAddress.formatIPv6core (bytesToWords bytes) ++ 93 :: 58 :: decStr p)) =
            (NetworkAddress.formatIPv6core (bytesToWords bytes), decStr p) := by
          rw [hsp]
          exact NetworkAddress.stripBrackets_strip _ _
        have := NetworkAddress.fromIPString_eval_v6 _ _ _ p 0 true _ hsplit
          (NetworkAddress.portText_explicit p (by omega)) hv4 hv6
        rw [this, hwr]

/-- C2 witness: the round trip holds at the concrete addresses
192.168.1.2:8080 and [fe80::1]:443. -/
theorem fromIPString_toString_roundtrip_witness :
    (∃ s, NetworkAddress.toString (NetworkAddress.ipv4 [192, 168, 1, 2] 8080) = some s ∧
          NetworkAddress.fromIPString s 0 true =
            some (NetworkAddress.ipv4 [192, 168, 1, 2] 8080)) ∧
    (∃ s, NetworkAddress.toString
            (NetworkAddress.ipv6 [254, 128, 0, 0, 0, 0, 0, 0, 0, 0, 0, 0, 0, 0, 0, 1] 443 0) =
            some s ∧
          NetworkAddress.fromIPString s 0 true =
            some (NetworkAddress.ipv6 [254, 128, 0, 0, 0, 0, 0, 0, 0, 0, 0, 0, 0, 0, 0, 1]
              443 0)) :=
  ⟨fromIPString_toString_roundtrip.1 192 168 1 2 8080 (by decide) (by decide) (by decide)
      (by decide) (by decide),
   fromIPString_toString_roundtrip.2 [254, 128, 0, 0, 0, 0, 0, 0, 0, 0, 0, 0, 0, 0, 0, 1] 443
      (by decide) (by decide) (by decide)⟩
